import Mathlib

/-!
Shallow embedding of the nD tic-tac-toe board library (`src/lib.rs`).

The board is a flat buffer of `3 ^ dimension` cell values (`0` = empty,
otherwise a player id).  Machine integers of the source (`u8`, `i8`, `usize`)
are modelled as `Nat` / `Int`; no arithmetic in the reachable states of the
source overflows its machine type, so no wrap-around modelling is needed
(coordinates that pass the source's bounds check are `≤ 3`, direction
components stay in `[-1, 1]`, and cell values are stored and compared only).

Fallible operations return `RRes`, with a `fatal` outcome modelling a Rust
panic / process abort (out-of-range slice indexing, `unwrap` on `None`).
-/

namespace NDTTT

/-- Result of a fallible operation: `ok`, an error value, or a process abort
(Rust panic, e.g. out-of-range slice indexing). -/
inductive RRes (ε : Type) (α : Type) where
  | ok : α → RRes ε α
  | err : ε → RRes ε α
  | fatal : RRes ε α
deriving DecidableEq, Repr

/-- `IndexError` from `src/lib.rs`. -/
inductive IndexError where
  | OutOfDimension : IndexError
  | OutOfBounds : IndexError
deriving DecidableEq, Repr

/-- `PlaceError` from `src/lib.rs`. -/
inductive PlaceError where
  | Unsupported : PlaceError
  | Occupied : PlaceError
deriving DecidableEq, Repr

/-- Top-level `Error` from `src/lib.rs`. -/
inductive Error where
  | PlaceError : PlaceError → Error
  | IndexError : IndexError → Error
deriving DecidableEq, Repr

/-- The `Board` struct: a dimension and a flat cell buffer. -/
structure Board where
  dimension : ℕ
  data : List ℕ
deriving DecidableEq, Repr

/-- Board invariant established by `Board::new`: the buffer has exactly
`3 ^ dimension` cells. -/
def Board.WF (b : Board) : Prop := b.data.length = 3 ^ b.dimension

/-- `Board::new`: a zero-initialized buffer of length `3 ^ dimension`
(`alloc_zeroed` with `get_data_length`). -/
def Board.new (dimension : ℕ) : Board :=
  ⟨dimension, List.replicate (3 ^ dimension) 0⟩

/-- The flat-offset accumulation of `get` / `get_mut`:
`index += 3.pow(i) * val` over the coordinates, with `i` the running
coordinate index. -/
def offAux : ℕ → List ℕ → ℕ
  | _, [] => 0
  | i, v :: rest => 3 ^ i * v + offAux (i + 1) rest

/-- Flat storage offset of a position: `Σ_i 3^i * pos[i]`. -/
def posOffset (pos : List ℕ) : ℕ := offAux 0 pos

/-- `Board::get`: dimension check, per-coordinate bounds check (the source
rejects only coordinates strictly greater than `3`), then a direct buffer
read `self.data[index]`, which aborts (panics) when the offset is out of
range of the buffer. -/
def Board.get (b : Board) (pos : List ℕ) : RRes IndexError ℕ :=
  if pos.length ≠ b.dimension then .err .OutOfDimension
  else if pos.any (fun v => decide (3 < v)) then .err .OutOfBounds
  else match b.data.get? (posOffset pos) with
    | some v => .ok v
    | none => .fatal

/-- `Board::get_mut`: same validation as `get`; the returned mutable
reference is modelled as the cell's flat offset together with its current
contents.  The source's `.unwrap()` on an out-of-range offset aborts. -/
def Board.get_mut (b : Board) (pos : List ℕ) : RRes IndexError (ℕ × ℕ) :=
  if pos.length ≠ b.dimension then .err .OutOfDimension
  else if pos.any (fun v => decide (3 < v)) then .err .OutOfBounds
  else match b.data.get? (posOffset pos) with
    | some v => .ok (posOffset pos, v)
    | none => .fatal

/-- The "highest non-zero dimension" computation of `place_piece`:
`(len-1) - position.iter().rev().position(|&e| e != 0).unwrap_or(len-1)`,
i.e. the index of the last nonzero coordinate, or `0` when all coordinates
are zero.  (`usize` subtraction is modelled by truncated `Nat` subtraction;
on every reachable input the source's subtractions do not underflow, and for
the all-zero case both compute `0`.) -/
def highestAxis (pos : List ℕ) : ℕ :=
  (pos.length - 1) - ((pos.reverse.findIdx? (fun e => e != 0)).getD (pos.length - 1))

/-- The supporting position of `place_piece`: the target position with the
highest nonzero coordinate decremented by one
(`supporting_pos[highest] -= 1`). -/
def supportingPos (pos : List ℕ) : List ℕ :=
  pos.set (highestAxis pos) (pos.getD (highestAxis pos) 0 - 1)

/-- One step of `check_win_dir`'s travel along the direction vector:
`pos[i] = (pos[i] as i8 + dir[i]).rem_euclid(3).unsigned_abs()` for each
component.  (On every input reaching this code the coordinates are `≤ 3`, so
the `u8 → i8` cast is exact.) -/
def stepPos (pos : List ℕ) (dir : List ℤ) : List ℕ :=
  List.zipWith (fun (a : ℕ) (v : ℤ) => ((a : ℤ) + v).emod 3 |>.natAbs) pos dir

/-- `Board::check_win_dir`: length check, read the starting cell, then step
twice along the (edge-wrapping) direction vector, comparing each visited cell
to the starting player.  The two-iteration `for` loop of the source is
unrolled. -/
def Board.check_win_dir (b : Board) (pos : List ℕ) (dir : List ℤ) :
    RRes Error Bool :=
  if pos.length ≠ dir.length then .err (.IndexError .OutOfDimension)
  else match b.get pos with
    | .err e => .err (.IndexError e)
    | .fatal => .fatal
    | .ok player =>
      if player = 0 then .ok false
      else
        match b.get (stepPos pos dir) with
        | .err e => .err (.IndexError e)
        | .fatal => .fatal
        | .ok v1 =>
          if v1 ≠ player then .ok false
          else
            match b.get (stepPos (stepPos pos dir) dir) with
            | .err e => .err (.IndexError e)
            | .fatal => .fatal
            | .ok v2 =>
              if v2 ≠ player then .ok false
              else .ok true

/-- `dir[len-1] += 1` of `is_win_at`'s odometer increment. -/
def incLast : List ℤ → List ℤ
  | [] => []
  | [x] => [x + 1]
  | x :: y :: rest => x :: incLast (y :: rest)

/-- The carry-propagation `for` loop of `is_win_at`, processing components
from the highest index down: a component that exceeds `1` is reset to `-1`
and carries `1` into the previous component.  The returned flag is `true`
when the carry falls off the front of the vector, in which case the source
indexes `dir[0 - 1]` and aborts. -/
def carryFix : List ℤ → List ℤ × Bool
  | [] => ([], false)
  | x :: xs =>
    match carryFix xs with
    | (ys, c) =>
      let x2 := if c then x + 1 else x
      if 1 < x2 then (-1 :: ys, true) else (x2 :: ys, false)

/-- A full odometer increment of the direction vector: add one at the last
component, then propagate carries. -/
def stepDir (dir : List ℤ) : List ℤ × Bool :=
  carryFix (incLast dir)

/-- The `while dir[0] <= 0` loop of `Board::is_win_at`.  `fuel` bounds the
number of iterations; with the fuel supplied by `is_win_at` the loop always
reaches its exit condition before the fuel runs out (the odometer advances by
exactly one each iteration), so the `fatal` at `0` is unreachable from
`is_win_at`. -/
def Board.isWinLoop (b : Board) (pos : List ℕ) :
    ℕ → List ℤ → RRes Error Bool
  | fuel, dir =>
    if dir.headI ≤ 0 then
      match fuel with
      | 0 => .fatal
      | fuel' + 1 =>
        if dir.all (fun n => n == 0) then
          match stepDir dir with
          | (_, true) => .fatal
          | (dir2, false) => b.isWinLoop pos fuel' dir2
        else
          match b.check_win_dir pos dir with
          | .ok true => .ok true
          | .ok false =>
            match stepDir dir with
            | (_, true) => .fatal
            | (dir2, false) => b.isWinLoop pos fuel' dir2
          | .err e => .err e
          | .fatal => .fatal
    else .ok false

/-- `Board::is_win_at`: starting from the all-`(-1)` direction vector, test
every enumerated direction until one wins or the vector's first component
becomes positive.  An empty position aborts (the source reads `dir[0]` of an
empty vector). -/
def Board.is_win_at (b : Board) (pos : List ℕ) : RRes Error Bool :=
  if pos.length = 0 then .fatal
  else b.isWinLoop pos (2 * 3 ^ (pos.length - 1)) (List.replicate pos.length (-1))

/-- Instrumented mirror of `isWinLoop` that additionally records, in order,
every direction vector on which `check_win_dir` is invoked (the nonzero
enumerated vectors, up to a winning one). -/
def Board.isWinTraceLoop (b : Board) (pos : List ℕ) :
    ℕ → List ℤ → List (List ℤ) → RRes Error Bool × List (List ℤ)
  | fuel, dir, acc =>
    if dir.headI ≤ 0 then
      match fuel with
      | 0 => (.fatal, acc)
      | fuel' + 1 =>
        if dir.all (fun n => n == 0) then
          match stepDir dir with
          | (_, true) => (.fatal, acc)
          | (dir2, false) => b.isWinTraceLoop pos fuel' dir2 acc
        else
          match b.check_win_dir pos dir with
          | .ok true => (.ok true, acc ++ [dir])
          | .ok false =>
            match stepDir dir with
            | (_, true) => (.fatal, acc ++ [dir])
            | (dir2, false) => b.isWinTraceLoop pos fuel' dir2 (acc ++ [dir])
          | .err e => (.err e, acc ++ [dir])
          | .fatal => (.fatal, acc ++ [dir])
    else (.ok false, acc)

/-- Instrumented mirror of `is_win_at`, returning the result together with
the list of direction vectors examined by `check_win_dir`. -/
def Board.is_win_at_trace (b : Board) (pos : List ℕ) :
    RRes Error Bool × List (List ℤ) :=
  if pos.length = 0 then (.fatal, [])
  else b.isWinTraceLoop pos (2 * 3 ^ (pos.length - 1))
    (List.replicate pos.length (-1)) []

/-- The tail of `Board::place_piece` after the support check: read the target
cell through `get_mut`, fail with `Occupied` if nonempty, otherwise write the
player id and run `is_win_at` on the updated board.  Returns the operation's
result together with the (possibly updated) cell buffer. -/
def Board.placeRest (b : Board) (player : ℕ) (position : List ℕ) :
    RRes Error Bool × List ℕ :=
  match b.get_mut position with
  | .err e => (.err (.IndexError e), b.data)
  | .fatal => (.fatal, b.data)
  | .ok (idx, v) =>
    if v ≠ 0 then (.err (.PlaceError .Occupied), b.data)
    else
      match (Board.mk b.dimension (b.data.set idx player)).is_win_at position with
      | .ok w => (.ok w, b.data.set idx player)
      | .err e => (.err e, b.data.set idx player)
      | .fatal => (.fatal, b.data.set idx player)

/-- `Board::place_piece`: gravity/support check (skipped when the highest
nonzero axis is `0` or `1`), then occupancy check, write, and win detection.
Returns the result together with the (possibly updated) cell buffer. -/
def Board.place_piece (b : Board) (player : ℕ) (position : List ℕ) :
    RRes Error Bool × List ℕ :=
  if 1 < highestAxis position then
    match b.get (supportingPos position) with
    | .err e => (.err (.IndexError e), b.data)
    | .fatal => (.fatal, b.data)
    | .ok v =>
      if v = 0 then (.err (.PlaceError .Unsupported), b.data)
      else b.placeRest player position
  else b.placeRest player position

/-! ### Derived definitions used to specify the algorithms -/

/-- Componentwise negation of a direction vector. -/
def negDir (d : List ℤ) : List ℤ := d.map (fun x => -x)

/-- The `k`-th cell of the wrapped line through `q` in direction `d`:
componentwise `(q[i] + k * d[i]) mod 3`. -/
def lineCell (q : List ℕ) (d : List ℤ) (k : ℕ) : List ℕ :=
  List.zipWith (fun (a : ℕ) (x : ℤ) => ((a : ℤ) + (k : ℤ) * x).emod 3 |>.natAbs) q d

/-- Odometer value of a direction vector: its components (shifted by one into
`{0,1,2}`) read as a base-3 numeral, most significant first.  The enumeration
loop of `is_win_at` advances this value by exactly one per iteration. -/
def dirVal : List ℤ → ℕ
  | [] => 0
  | x :: xs => (x + 1).toNat * 3 ^ xs.length + dirVal xs

/-- The direction vector of length `D` with odometer value `n`: the base-3
digits of `n`, most significant first, each shifted down by one. -/
def valVec : ℕ → ℕ → List ℤ
  | 0, _ => []
  | D + 1, n => (((n / 3 ^ D % 3 : ℕ) : ℤ) - 1) :: valVec D (n % 3 ^ D)

/-- The direction vectors enumerated by `is_win_at`'s loop, in order: all
vectors of `{-1,0,1}^D` whose first component is `≤ 0` (odometer values
`0 ≤ n < 2 * 3^(D-1)`), including the all-zero vector (which the loop skips
without testing). -/
def candSeq (D : ℕ) : List (List ℤ) :=
  (List.range (2 * 3 ^ (D - 1))).map (valVec D)

/-- The direction vectors actually tested by `check_win_dir` during a full
(no-win) run of `is_win_at`: the enumerated vectors minus the all-zero one. -/
def nonzeroCands (D : ℕ) : List (List ℤ) :=
  (candSeq D).filter (fun d => !(d.all (fun z => z == 0)))

/-! ### Offset arithmetic -/

theorem offAux_succ (l : List ℕ) : ∀ i, offAux (i + 1) l = 3 * offAux i l := by
  induction l with
  | nil => intro i; simp [offAux]
  | cons v rest ih =>
    intro i
    simp only [offAux, ih (i + 1), pow_succ]
    ring

theorem posOffset_nil : posOffset [] = 0 := rfl

theorem posOffset_cons (v : ℕ) (rest : List ℕ) :
    posOffset (v :: rest) = v + 3 * posOffset rest := by
  simp [posOffset, offAux, offAux_succ]

theorem posOffset_lt (p : List ℕ) (h : ∀ c ∈ p, c < 3) :
    posOffset p < 3 ^ p.length := by
  induction p with
  | nil => simp [posOffset_nil]
  | cons v rest ih =>
    have hv : v < 3 := h v (by simp)
    have hr : posOffset rest < 3 ^ rest.length := ih (fun c hc => h c (by simp [hc]))
    rw [posOffset_cons]
    simp only [List.length_cons, pow_succ]
    omega

theorem posOffset_inj (p q : List ℕ) (hl : p.length = q.length)
    (hp : ∀ c ∈ p, c < 3) (hq : ∀ c ∈ q, c < 3)
    (h : posOffset p = posOffset q) : p = q := by
  induction p generalizing q with
  | nil =>
    cases q with
    | nil => rfl
    | cons w t => simp at hl
  | cons v rest ih =>
    cases q with
    | nil => simp at hl
    | cons w t =>
      rw [posOffset_cons, posOffset_cons] at h
      have hv : v < 3 := hp v (by simp)
      have hw : w < 3 := hq w (by simp)
      have hvw : v = w := by omega
      have hrt : posOffset rest = posOffset t := by omega
      have : rest = t := ih t (by simpa using hl)
        (fun c hc => hp c (by simp [hc])) (fun c hc => hq c (by simp [hc])) hrt
      rw [hvw, this]

theorem posOffset_eq_sum (p : List ℕ) :
    posOffset p = ∑ i ∈ Finset.range p.length, p.getD i 0 * 3 ^ i := by
  induction p with
  | nil => simp [posOffset_nil]
  | cons v rest ih =>
    rw [posOffset_cons, List.length_cons, Finset.sum_range_succ']
    simp only [List.getD_cons_succ, List.getD_cons_zero, pow_zero, mul_one, ih,
      Finset.mul_sum]
    rw [Nat.add_comm]
    congr 1
    apply Finset.sum_congr rfl
    intro i _
    ring

/-! ### `get` / `get_mut` characterizations -/

theorem get_valid (b : Board) (p : List ℕ) (hw : b.WF)
    (hl : p.length = b.dimension) (hp : ∀ c ∈ p, c < 3) :
    b.get p = .ok (b.data.getD (posOffset p) 0) := by
  have hoff : posOffset p < b.data.length := by
    rw [hw, ← hl]; exact posOffset_lt p hp
  have hany : p.any (fun v => decide (3 < v)) = false := by
    rw [List.any_eq_false]
    intro c hc
    have := hp c hc
    simp only [decide_eq_true_eq]
    omega
  have hsome : b.data.get? (posOffset p) = some (b.data.getD (posOffset p) 0) := by
    rw [List.get?_eq_getElem?, List.getElem?_eq_getElem hoff,
      List.getD_eq_getElem b.data 0 hoff]
  unfold Board.get
  rw [if_neg (by simp [hl]), if_neg (by simp [hany]), hsome]

theorem get_ok_inv (b : Board) (p : List ℕ) (v : ℕ) (h : b.get p = .ok v) :
    p.length = b.dimension ∧ (∀ c ∈ p, c ≤ 3) ∧
      b.data.get? (posOffset p) = some v := by
  unfold Board.get at h
  split at h
  · exact absurd h (by simp)
  · rename_i hlen
    split at h
    · exact absurd h (by simp)
    · rename_i hany
      refine ⟨by omega, ?_, ?_⟩
      · intro c hc
        by_contra hc3
        have : p.any (fun v => decide (3 < v)) = true :=
          List.any_eq_true.mpr ⟨c, hc, by simp only [decide_eq_true_eq]; omega⟩
        exact hany (by simp [this])
      · split at h
        · rename_i v' hv'
          cases h; exact hv'
        · exact absurd h (by simp)

theorem get_mut_eq_get (b : Board) (p : List ℕ) :
    b.get_mut p = match b.get p with
      | .ok v => .ok (posOffset p, v)
      | .err e => .err e
      | .fatal => .fatal := by
  unfold Board.get_mut Board.get
  split
  · rfl
  · split
    · rfl
    · split <;> simp_all

theorem get_mut_ok_inv (b : Board) (p : List ℕ) (idx v : ℕ)
    (h : b.get_mut p = .ok (idx, v)) :
    idx = posOffset p ∧ b.get p = .ok v := by
  rw [get_mut_eq_get] at h
  split at h
  · rename_i v' hv'
    cases h; exact ⟨rfl, hv'⟩
  · exact absurd h (by simp)
  · exact absurd h (by simp)

theorem get_mut_valid (b : Board) (p : List ℕ) (hw : b.WF)
    (hl : p.length = b.dimension) (hp : ∀ c ∈ p, c < 3) :
    b.get_mut p = .ok (posOffset p, b.data.getD (posOffset p) 0) := by
  rw [get_mut_eq_get, get_valid b p hw hl hp]

/-! ### `highestAxis` characterization -/

theorem findIdx?_all_zero (l : List ℕ) (h : ∀ x ∈ l, x = 0) :
    l.findIdx? (fun e => e != 0) = none := by
  induction l with
  | nil => rfl
  | cons a t ih =>
    have ha : a = 0 := h a (by simp)
    rw [List.findIdx?_cons, if_neg (by simp [ha])]
    have := ih (fun x hx => h x (by simp [hx]))
    simp [List.findIdx?_succ, this]

theorem findIdx?_replicate_zero_append (m : ℕ) (x : ℕ) (t : List ℕ) (hx : x ≠ 0) :
    (List.replicate m 0 ++ x :: t).findIdx? (fun e => e != 0) = some m := by
  induction m with
  | zero => simp [List.findIdx?_cons, hx]
  | succ m ih =>
    rw [List.replicate_succ, List.cons_append, List.findIdx?_cons, if_neg (by simp)]
    simp [List.findIdx?_succ, ih]

theorem highestAxis_all_zero (pos : List ℕ) (h : ∀ x ∈ pos, x = 0) :
    highestAxis pos = 0 := by
  unfold highestAxis
  rw [findIdx?_all_zero pos.reverse (fun x hx => h x (List.mem_reverse.mp hx))]
  simp

theorem highestAxis_eq (pos : List ℕ) (i : ℕ) (hi : i < pos.length)
    (hnz : pos.getD i 0 ≠ 0)
    (hz : ∀ j, i < j → j < pos.length → pos.getD j 0 = 0) :
    highestAxis pos = i := by
  have hget : pos.getD i 0 = pos[i] := List.getD_eq_getElem pos 0 hi
  have hsplit : pos = pos.take i ++ pos[i] :: pos.drop (i + 1) := by
    rw [← List.drop_eq_getElem_cons hi, List.take_append_drop]
  have hdropz : ∀ x ∈ pos.drop (i + 1), x = 0 := by
    intro x hx
    obtain ⟨k, hk, hkx⟩ := List.mem_iff_getElem.mp hx
    rw [List.getElem_drop] at hkx
    have hlt : i + 1 + k < pos.length := by
      have := List.length_drop (i + 1) pos
      omega
    have := hz (i + 1 + k) (by omega) hlt
    rw [List.getD_eq_getElem pos 0 hlt] at this
    omega
  have hdrop_rep : pos.drop (i + 1) = List.replicate (pos.length - (i + 1)) 0 := by
    have := List.eq_replicate_of_mem hdropz
    rwa [List.length_drop] at this
  have hrev : pos.reverse =
      List.replicate (pos.length - (i + 1)) 0 ++ pos[i] :: (pos.take i).reverse := by
    conv_lhs => rw [hsplit]
    rw [List.reverse_append, List.reverse_cons, hdrop_rep, List.reverse_replicate]
    simp
  unfold highestAxis
  rw [hrev, findIdx?_replicate_zero_append _ _ _ (by rw [← hget]; exact hnz)]
  simp only [Option.getD_some]
  omega

theorem highestAxis_le_one (pos : List ℕ)
    (h : ∀ i, 2 ≤ i → i < pos.length → pos.getD i 0 = 0) :
    highestAxis pos ≤ 1 := by
  by_cases h1 : pos.getD 1 0 = 0
  · by_cases h0 : pos.getD 0 0 = 0
    · have : ∀ x ∈ pos, x = 0 := by
        intro x hx
        obtain ⟨k, hk, hkx⟩ := List.mem_iff_getElem.mp hx
        have hgk : pos.getD k 0 = pos[k] := List.getD_eq_getElem pos 0 hk
        rcases Nat.lt_or_ge k 2 with hk2 | hk2
        · interval_cases k <;> omega
        · have := h k hk2 hk; omega
      rw [highestAxis_all_zero pos this]; omega
    · have hlen : 0 < pos.length := by
        by_contra hl
        have : pos = [] := List.eq_nil_of_length_eq_zero (by omega)
        rw [this] at h0; simp at h0
      have := highestAxis_eq pos 0 hlen h0 (fun j hj hjl => by
        rcases Nat.lt_or_ge j 2 with hj2 | hj2
        · interval_cases j <;> omega
        · exact h j hj2 hjl)
      omega
  · have hlen : 1 < pos.length := by
      by_contra hl
      have : pos.getD 1 0 = 0 := by
        rcases pos with _ | ⟨a, _ | ⟨c, t⟩⟩ <;> simp_all
      exact h1 this
    have := highestAxis_eq pos 1 hlen h1 (fun j hj hjl => h j (by omega) hjl)
    omega

/-! ### `stepPos` facts -/

theorem length_stepPos (pos : List ℕ) (dir : List ℤ) :
    (stepPos pos dir).length = min pos.length dir.length := by
  simp [stepPos]

theorem stepPos_lt_three (pos : List ℕ) (dir : List ℤ) :
    ∀ c ∈ stepPos pos dir, c < 3 := by
  induction pos generalizing dir with
  | nil => intro c hc; simp [stepPos] at hc
  | cons a t ih =>
    intro c hc
    cases dir with
    | nil => simp [stepPos] at hc
    | cons x d =>
      simp only [stepPos, List.zipWith_cons_cons, List.mem_cons] at hc
      rcases hc with hc | hc
      · have h1 : (0:ℤ) ≤ ((a:ℤ) + x).emod 3 := Int.emod_nonneg _ (by norm_num)
        have h2 : ((a:ℤ) + x).emod 3 < 3 := Int.emod_lt_of_pos _ (by norm_num)
        omega
      · exact ih d c hc

/-! ### Wrapped-line algebra -/

theorem comp_nonneg_natAbs (z : ℤ) : ((z.emod 3).natAbs : ℤ) = z.emod 3 :=
  Int.natAbs_of_nonneg (Int.emod_nonneg z (by norm_num))

theorem emod3_eq (z : ℤ) : z.emod 3 = z % 3 := rfl

theorem comp_step (a : ℕ) (x : ℤ) (k : ℕ) :
    (((((((a : ℤ) + (k : ℤ) * x).emod 3).natAbs : ℕ) : ℤ) + x).emod 3).natAbs
      = (((a : ℤ) + ((k + 1 : ℕ) : ℤ) * x).emod 3).natAbs := by
  congr 1
  rw [comp_nonneg_natAbs]
  simp only [emod3_eq]
  rw [Int.emod_add_emod]
  congr 1
  push_cast
  ring

theorem comp_step_neg (a : ℕ) (x : ℤ) (k : ℕ) :
    (((((((a : ℤ) + (k : ℤ) * x).emod 3).natAbs : ℕ) : ℤ) + (-x)).emod 3).natAbs
      = (((a : ℤ) + ((k + 2 : ℕ) : ℤ) * x).emod 3).natAbs := by
  congr 1
  rw [comp_nonneg_natAbs]
  simp only [emod3_eq]
  rw [Int.emod_add_emod]
  have : (a : ℤ) + ((k + 2 : ℕ) : ℤ) * x = ((a : ℤ) + (k : ℤ) * x + -x) + 3 * x := by
    push_cast; ring
  rw [this, Int.add_mul_emod_self_left]

theorem comp_three (a : ℕ) (x : ℤ) (k : ℕ) :
    (((a : ℤ) + ((k + 3 : ℕ) : ℤ) * x).emod 3) = (((a : ℤ) + (k : ℤ) * x).emod 3) := by
  have : (a : ℤ) + ((k + 3 : ℕ) : ℤ) * x = ((a : ℤ) + (k : ℤ) * x) + 3 * x := by
    push_cast; ring
  simp only [emod3_eq]
  rw [this, Int.add_mul_emod_self_left]

theorem length_lineCell (q : List ℕ) (d : List ℤ) (k : ℕ) :
    (lineCell q d k).length = min q.length d.length := by
  simp [lineCell]

theorem lineCell_lt_three (q : List ℕ) (d : List ℤ) (k : ℕ) :
    ∀ c ∈ lineCell q d k, c < 3 := by
  induction q generalizing d with
  | nil => intro c hc; simp [lineCell] at hc
  | cons a t ih =>
    intro c hc
    cases d with
    | nil => simp [lineCell] at hc
    | cons x ds =>
      simp only [lineCell, List.zipWith_cons_cons, List.mem_cons] at hc
      rcases hc with hc | hc
      · have h1 : (0:ℤ) ≤ ((a:ℤ) + (k:ℤ) * x).emod 3 := Int.emod_nonneg _ (by norm_num)
        have h2 : ((a:ℤ) + (k:ℤ) * x).emod 3 < 3 := Int.emod_lt_of_pos _ (by norm_num)
        omega
      · exact ih ds c hc

theorem lineCell_zero (q : List ℕ) (d : List ℤ) (hq : ∀ c ∈ q, c < 3) :
    lineCell q d 0 = q.take d.length := by
  induction q generalizing d with
  | nil => simp [lineCell]
  | cons a t ih =>
    cases d with
    | nil => simp [lineCell]
    | cons x ds =>
      have ha : a < 3 := hq a (by simp)
      simp only [lineCell, List.zipWith_cons_cons, List.length_cons, List.take_succ_cons]
      congr 1
      · have : ((a:ℤ) + (0:ℕ) * x) = (a:ℤ) := by push_cast; ring
        rw [this, emod3_eq, Int.emod_eq_of_lt (by omega) (by omega)]
        simp
      · exact ih ds (fun c hc => hq c (by simp [hc]))

theorem lineCell_zero_eq (q : List ℕ) (d : List ℤ) (hq : ∀ c ∈ q, c < 3)
    (hl : q.length ≤ d.length) : lineCell q d 0 = q := by
  rw [lineCell_zero q d hq, List.take_of_length_le hl]

theorem stepPos_lineCell (q : List ℕ) (d : List ℤ) (k : ℕ) :
    stepPos (lineCell q d k) d = lineCell q d (k + 1) := by
  induction q generalizing d with
  | nil => simp [lineCell, stepPos]
  | cons a t ih =>
    cases d with
    | nil => simp [lineCell, stepPos]
    | cons x ds =>
      simp only [lineCell, stepPos, List.zipWith_cons_cons]
      congr 1
      · exact comp_step a x k
      · exact ih ds

theorem stepPos_neg_lineCell (q : List ℕ) (d : List ℤ) (k : ℕ) :
    stepPos (lineCell q d k) (negDir d) = lineCell q d (k + 2) := by
  induction q generalizing d with
  | nil => simp [lineCell, stepPos, negDir]
  | cons a t ih =>
    cases d with
    | nil => simp [lineCell, stepPos, negDir]
    | cons x ds =>
      simp only [lineCell, stepPos, negDir, List.map_cons, List.zipWith_cons_cons]
      congr 1
      · exact comp_step_neg a x k
      · exact ih ds

theorem lineCell_add_three (q : List ℕ) (d : List ℤ) (k : ℕ) :
    lineCell q d (k + 3) = lineCell q d k := by
  induction q generalizing d with
  | nil => simp [lineCell]
  | cons a t ih =>
    cases d with
    | nil => simp [lineCell]
    | cons x ds =>
      simp only [lineCell, List.zipWith_cons_cons]
      congr 1
      · exact congrArg Int.natAbs (comp_three a x k)
      · exact ih ds

theorem lineCell_mod (q : List ℕ) (d : List ℤ) (k : ℕ) :
    lineCell q d k = lineCell q d (k % 3) := by
  have haux : ∀ (m r : ℕ), lineCell q d (r + 3 * m) = lineCell q d r := by
    intro m
    induction m with
    | zero => simp
    | succ m ihm =>
      intro r
      have : r + 3 * (m + 1) = (r + 3 * m) + 3 := by ring
      rw [this, lineCell_add_three, ihm]
  conv_lhs => rw [← Nat.mod_add_div k 3]
  exact haux (k / 3) (k % 3)

theorem getElem_lineCell (q : List ℕ) (d : List ℤ) (k i : ℕ)
    (h1 : i < q.length) (h2 : i < d.length) (a : ℕ) (x : ℤ)
    (ha : q[i] = a) (hx : d[i] = x) (hi3 : i < (lineCell q d k).length) :
    (lineCell q d k).get ⟨i, hi3⟩
      = (((a : ℤ) + (k : ℤ) * x).emod 3).natAbs := by
  subst ha hx
  rw [List.get_eq_getElem]
  unfold lineCell
  exact List.getElem_zipWith ..

theorem lineCell_ne (q : List ℕ) (d : List ℤ) (j k : ℕ)
    (hlen : q.length = d.length)
    (hin : ∀ x ∈ d, -1 ≤ x ∧ x ≤ 1) (hnz : ∃ x ∈ d, x ≠ 0)
    (hjk : j % 3 ≠ k % 3) : lineCell q d j ≠ lineCell q d k := by
  obtain ⟨x0, hx0mem, hx0⟩ := hnz
  obtain ⟨i, hi, hix⟩ := List.mem_iff_getElem.mp hx0mem
  intro heq
  have hiq : i < q.length := by omega
  have hiLj : i < (lineCell q d j).length := by rw [length_lineCell]; omega
  have hiLk : i < (lineCell q d k).length := by rw [length_lineCell]; omega
  have h1 := getElem_lineCell q d j i hiq hi (q.get ⟨i, hiq⟩) x0 rfl hix hiLj
  have h2' := getElem_lineCell q d k i hiq hi (q.get ⟨i, hiq⟩) x0 rfl hix hiLk
  have hcomp := List.getElem_of_eq heq hiLj
  rw [List.get_eq_getElem] at h1 h2'
  have h2 := (h1.symm.trans hcomp).trans h2'
  have hx1 : x0 = 1 ∨ x0 = -1 := by
    have := hin x0 hx0mem
    omega
  rcases hx1 with hx | hx
  · rw [hx] at h2
    simp only [mul_one, mul_neg] at h2
    rcases Int.natAbs_eq_natAbs_iff.mp h2 with hzz | hzz <;>
      simp only [emod3_eq] at hzz <;> omega
  · rw [hx] at h2
    simp only [mul_one, mul_neg] at h2
    rcases Int.natAbs_eq_natAbs_iff.mp h2 with hzz | hzz <;>
      simp only [emod3_eq] at hzz <;> omega

/-! ### Odometer facts: the enumeration of `is_win_at` -/

theorem length_valVec (D : ℕ) : ∀ n, (valVec D n).length = D := by
  induction D with
  | zero => intro n; rfl
  | succ E ih => intro n; simp [valVec, ih]

theorem valVec_mem_range (D : ℕ) : ∀ n, ∀ x ∈ valVec D n, -1 ≤ x ∧ x ≤ 1 := by
  induction D with
  | zero => intro n x hx; simp [valVec] at hx
  | succ E ih =>
    intro n x hx
    simp only [valVec, List.mem_cons] at hx
    rcases hx with hx | hx
    · have hm : n / 3 ^ E % 3 < 3 := Nat.mod_lt _ (by norm_num)
      omega
    · exact ih _ x hx

theorem valVec_zero (D : ℕ) : valVec D 0 = List.replicate D (-1) := by
  induction D with
  | zero => rfl
  | succ E ih => simp [valVec, ih, List.replicate_succ]

theorem dirVal_lt (d : List ℤ) (h : ∀ x ∈ d, -1 ≤ x ∧ x ≤ 1) :
    dirVal d < 3 ^ d.length := by
  induction d with
  | nil => simp [dirVal]
  | cons x xs ih =>
    have hx := h x (by simp)
    have ht : (x + 1).toNat ≤ 2 := by omega
    have hr : dirVal xs < 3 ^ xs.length := ih (fun y hy => h y (by simp [hy]))
    have hmul : (x + 1).toNat * 3 ^ xs.length ≤ 2 * 3 ^ xs.length :=
      Nat.mul_le_mul_right _ ht
    simp only [dirVal, List.length_cons, pow_succ]
    omega

theorem dirVal_valVec (D : ℕ) : ∀ n, n < 3 ^ D → dirVal (valVec D n) = n := by
  induction D with
  | zero => intro n hn; interval_cases n; rfl
  | succ E ih =>
    intro n hn
    have hP : 0 < 3 ^ E := pow_pos (by norm_num) E
    have hdiv : n / 3 ^ E < 3 := by
      apply Nat.div_lt_of_lt_mul
      rw [pow_succ] at hn
      omega
    simp only [valVec, dirVal, length_valVec]
    rw [ih (n % 3 ^ E) (Nat.mod_lt _ hP)]
    have htn : (((n / 3 ^ E % 3 : ℕ) : ℤ) - 1 + 1).toNat = n / 3 ^ E % 3 := by omega
    rw [htn, Nat.mod_eq_of_lt hdiv, Nat.mul_comm (n / 3 ^ E) (3 ^ E)]
    exact Nat.div_add_mod n (3 ^ E)

theorem valVec_dirVal (d : List ℤ) (h : ∀ x ∈ d, -1 ≤ x ∧ x ≤ 1) :
    valVec d.length (dirVal d) = d := by
  induction d with
  | nil => rfl
  | cons x xs ih =>
    have hx := h x (by simp)
    have hr : dirVal xs < 3 ^ xs.length := dirVal_lt xs (fun y hy => h y (by simp [hy]))
    have hP : 0 < 3 ^ xs.length := pow_pos (by norm_num) xs.length
    simp only [List.length_cons, valVec, dirVal]
    have hdiv : ((x + 1).toNat * 3 ^ xs.length + dirVal xs) / 3 ^ xs.length
        = (x + 1).toNat := by
      rw [Nat.mul_comm, Nat.mul_add_div hP, Nat.div_eq_of_lt hr, Nat.add_zero]
    have hmod : ((x + 1).toNat * 3 ^ xs.length + dirVal xs) % 3 ^ xs.length
        = dirVal xs := by
      rw [Nat.mul_comm, Nat.mul_add_mod, Nat.mod_eq_of_lt hr]
    rw [hdiv, hmod, ih (fun y hy => h y (by simp [hy]))]
    have ht3 : (x + 1).toNat % 3 = (x + 1).toNat := Nat.mod_eq_of_lt (by omega)
    rw [ht3]
    congr 1
    omega

theorem headI_valVec (E n : ℕ) (h : n < 3 ^ (E + 1)) :
    ((valVec (E + 1) n).headI ≤ 0 ↔ n < 2 * 3 ^ E) := by
  have hP : 0 < 3 ^ E := pow_pos (by norm_num) E
  have hdm := Nat.div_add_mod n (3 ^ E)
  have hm : n % 3 ^ E < 3 ^ E := Nat.mod_lt _ hP
  have hdiv : n / 3 ^ E < 3 := by
    apply Nat.div_lt_of_lt_mul
    rw [pow_succ] at h
    omega
  simp only [valVec, List.headI, Nat.mod_eq_of_lt hdiv]
  constructor
  · intro hle
    have h1 : n / 3 ^ E ≤ 1 := by omega
    have h2 : 3 ^ E * (n / 3 ^ E) ≤ 3 ^ E * 1 := Nat.mul_le_mul_left _ h1
    omega
  · intro hlt
    by_contra hgt
    have h1 : 2 ≤ n / 3 ^ E := by omega
    have h2 : 3 ^ E * 2 ≤ 3 ^ E * (n / 3 ^ E) := Nat.mul_le_mul_left _ h1
    omega

theorem dirVal_head_lt (d : List ℤ) (hin : ∀ x ∈ d, -1 ≤ x ∧ x ≤ 1)
    (hne : d ≠ []) (hh : d.headI ≤ 0) :
    dirVal d < 2 * 3 ^ (d.length - 1) := by
  cases d with
  | nil => exact absurd rfl hne
  | cons x xs =>
    have hx := hin x (by simp)
    simp only [List.headI] at hh
    have ht : (x + 1).toNat ≤ 1 := by omega
    have hr : dirVal xs < 3 ^ xs.length := dirVal_lt xs (fun y hy => hin y (by simp [hy]))
    have hmul : (x + 1).toNat * 3 ^ xs.length ≤ 1 * 3 ^ xs.length :=
      Nat.mul_le_mul_right _ ht
    simp only [dirVal, List.length_cons, Nat.add_sub_cancel]
    omega

theorem incLast_length : ∀ l : List ℤ, (incLast l).length = l.length
  | [] => rfl
  | [_] => rfl
  | _ :: y :: rest => by
    simp [incLast, incLast_length (y :: rest)]

theorem incLast_cons (x : ℤ) (l : List ℤ) (h : l ≠ []) :
    incLast (x :: l) = x :: incLast l := by
  cases l with
  | nil => exact absurd rfl h
  | cons y rest => rfl

theorem carryFix_cons (x : ℤ) (xs ys : List ℤ) (c : Bool) (h : carryFix xs = (ys, c)) :
    carryFix (x :: xs) =
      if 1 < (if c then x + 1 else x) then (-1 :: ys, true)
      else ((if c then x + 1 else x) :: ys, false) := by
  simp only [carryFix, h]

theorem carryFix_length (l : List ℤ) : (carryFix l).1.length = l.length := by
  induction l with
  | nil => rfl
  | cons x xs ih =>
    rcases h : carryFix xs with ⟨ys, c⟩
    have ih' : ys.length = xs.length := by
      rw [h] at ih
      simpa using ih
    rw [carryFix_cons x xs ys c h]
    split_ifs <;> simp [ih']

theorem stepDir_length (l : List ℤ) : ((stepDir l).1).length = l.length := by
  rw [stepDir, carryFix_length, incLast_length]

theorem carryFix_incLast_top (D : ℕ) (hD : 1 ≤ D) :
    carryFix (incLast (valVec D (3 ^ D - 1))) = (List.replicate D (-1), true) := by
  induction D with
  | zero => omega
  | succ E ih =>
    by_cases hE : E = 0
    · subst hE; decide
    · have hE1 : 1 ≤ E := by omega
      have hP : 0 < 3 ^ E := pow_pos (by norm_num) E
      have hsplit : 3 ^ (E + 1) - 1 = 2 * 3 ^ E + (3 ^ E - 1) := by
        rw [pow_succ]; omega
      have hdiv : (3 ^ (E + 1) - 1) / 3 ^ E = 2 := by
        rw [hsplit, Nat.mul_comm 2 (3 ^ E), Nat.mul_add_div hP,
          Nat.div_eq_of_lt (by omega)]
      have hmod : (3 ^ (E + 1) - 1) % 3 ^ E = 3 ^ E - 1 := by
        rw [hsplit, Nat.mul_comm 2 (3 ^ E), Nat.mul_add_mod,
          Nat.mod_eq_of_lt (by omega)]
      have hvv : valVec (E + 1) (3 ^ (E + 1) - 1)
          = (1 : ℤ) :: valVec E (3 ^ E - 1) := by
        simp only [valVec, hdiv, hmod]
        norm_num
      have hne : valVec E (3 ^ E - 1) ≠ [] := by
        intro hc
        have h0 : (valVec E (3 ^ E - 1)).length = 0 := by rw [hc]; rfl
        have h1 := length_valVec E (3 ^ E - 1)
        omega
      rw [hvv, incLast_cons _ _ hne, carryFix_cons _ _ _ _ (ih hE1)]
      norm_num [List.replicate_succ]

theorem stepDir_valVec (D : ℕ) (hD : 1 ≤ D) :
    ∀ n, n + 1 < 3 ^ D → stepDir (valVec D n) = (valVec D (n + 1), false) := by
  induction D with
  | zero => omega
  | succ E ih =>
    intro n hn
    by_cases hE : E = 0
    · subst hE
      have hn2 : n = 0 ∨ n = 1 := by
        have h3 : (3:ℕ) ^ (0 + 1) = 3 := by norm_num
        rw [h3] at hn
        omega
      rcases hn2 with rfl | rfl <;> decide
    · have hE1 : 1 ≤ E := by omega
      have hP : 0 < 3 ^ E := pow_pos (by norm_num) E
      have hdm := Nat.div_add_mod n (3 ^ E)
      have hm : n % 3 ^ E < 3 ^ E := Nat.mod_lt _ hP
      have hdiv : n / 3 ^ E < 3 := by
        apply Nat.div_lt_of_lt_mul
        rw [pow_succ] at hn
        omega
      have hvv : valVec (E + 1) n
          = (((n / 3 ^ E % 3 : ℕ) : ℤ) - 1) :: valVec E (n % 3 ^ E) := rfl
      have hne : valVec E (n % 3 ^ E) ≠ [] := by
        intro hc
        have h0 : (valVec E (n % 3 ^ E)).length = 0 := by rw [hc]; rfl
        have h1 := length_valVec E (n % 3 ^ E)
        omega
      rw [stepDir] at *
      rw [hvv, incLast_cons _ _ hne]
      by_cases hcase : n % 3 ^ E + 1 < 3 ^ E
      · have hrec := ih hE1 (n % 3 ^ E) hcase
        rw [stepDir] at hrec
        rw [carryFix_cons _ _ _ _ hrec]
        have hq : (n + 1) / 3 ^ E = n / 3 ^ E := by
          have : n + 1 = 3 ^ E * (n / 3 ^ E) + (n % 3 ^ E + 1) := by omega
          rw [this, Nat.mul_add_div hP, Nat.div_eq_of_lt hcase, Nat.add_zero]
        have hq2 : (n + 1) % 3 ^ E = n % 3 ^ E + 1 := by
          have : n + 1 = 3 ^ E * (n / 3 ^ E) + (n % 3 ^ E + 1) := by omega
          rw [this, Nat.mul_add_mod, Nat.mod_eq_of_lt hcase]
        have hhead : ¬ (1 : ℤ) < ((n / 3 ^ E % 3 : ℕ) : ℤ) - 1 := by
          have : n / 3 ^ E % 3 < 3 := Nat.mod_lt _ (by norm_num)
          omega
        rw [if_neg (by simpa using hhead)]
        have hvv2 : valVec (E + 1) (n + 1)
            = ((((n + 1) / 3 ^ E % 3 : ℕ) : ℤ) - 1) :: valVec E ((n + 1) % 3 ^ E) := rfl
        rw [hvv2, hq, hq2]
        simp
      · have hmtop : n % 3 ^ E = 3 ^ E - 1 := by omega
        rw [hmtop, carryFix_cons _ _ _ _ (carryFix_incLast_top E hE1)]
        have hq : n + 1 = 3 ^ E * (n / 3 ^ E + 1) := by
          have h4 : 3 ^ E * (n / 3 ^ E + 1) = 3 ^ E * (n / 3 ^ E) + (3 ^ E - 1) + 1 := by
            rw [Nat.mul_add, Nat.mul_one, Nat.add_assoc, Nat.sub_add_cancel hP]
          rw [h4, ← hmtop, hdm]
        have hqle : n / 3 ^ E ≤ 1 := by
          by_contra hgt
          have h2 : 3 ^ E * 2 ≤ 3 ^ E * (n / 3 ^ E) := Nat.mul_le_mul_left _ (by omega)
          rw [pow_succ] at hn
          omega
        have hdiv2 : (n + 1) / 3 ^ E = n / 3 ^ E + 1 := by
          rw [hq, Nat.mul_div_cancel_left _ hP]
        have hmod2 : (n + 1) % 3 ^ E = 0 := by
          rw [hq]
          exact Nat.mul_mod_right _ _
        have hif : (if true then (((n / 3 ^ E % 3 : ℕ) : ℤ) - 1) + 1
            else (((n / 3 ^ E % 3 : ℕ) : ℤ) - 1)) = ((n / 3 ^ E : ℕ) : ℤ) := by
          rw [if_pos rfl, Nat.mod_eq_of_lt hdiv]
          omega
        rw [hif]
        rw [if_neg (show ¬ (1:ℤ) < ((n / 3 ^ E : ℕ) : ℤ) by omega)]
        have hvv2 : valVec (E + 1) (n + 1)
            = ((((n + 1) / 3 ^ E % 3 : ℕ) : ℤ) - 1) :: valVec E ((n + 1) % 3 ^ E) := rfl
        rw [hvv2, hdiv2, hmod2, valVec_zero, Nat.mod_eq_of_lt (by omega)]
        simp only [Prod.mk.injEq, List.cons.injEq, and_true]
        push_cast
        omega

/-! ### `check_win_dir` semantics -/

theorem check_win_dir_valid (b : Board) (p : List ℕ) (d : List ℤ)
    (hw : b.WF) (hl : p.length = b.dimension) (hd : d.length = p.length)
    (hp : ∀ c ∈ p, c < 3) :
    b.check_win_dir p d =
      .ok (decide (b.data.getD (posOffset p) 0 ≠ 0
        ∧ b.data.getD (posOffset (stepPos p d)) 0 = b.data.getD (posOffset p) 0
        ∧ b.data.getD (posOffset (stepPos (stepPos p d) d)) 0
            = b.data.getD (posOffset p) 0)) := by
  have l1 : (stepPos p d).length = p.length := by
    rw [length_stepPos]; omega
  have l2 : (stepPos (stepPos p d) d).length = p.length := by
    rw [length_stepPos]; omega
  have h0 := get_valid b p hw hl hp
  have h1 := get_valid b (stepPos p d) hw (l1.trans hl) (stepPos_lt_three p d)
  have h2 := get_valid b (stepPos (stepPos p d) d) hw (l2.trans hl)
    (stepPos_lt_three _ d)
  unfold Board.check_win_dir
  rw [if_neg (by omega)]
  simp only [h0, h1, h2]
  split_ifs with hv0 hv1 hv2
  · exact congrArg RRes.ok (decide_eq_false fun h => h.1 hv0).symm
  · exact congrArg RRes.ok (decide_eq_false fun h => hv1 h.2.1).symm
  · exact congrArg RRes.ok (decide_eq_false fun h => hv2 h.2.2).symm
  · exact congrArg RRes.ok
      (decide_eq_true ⟨hv0, not_ne_iff.mp hv1, not_ne_iff.mp hv2⟩).symm

theorem check_win_dir_ok (b : Board) (p : List ℕ) (d : List ℤ)
    (hw : b.WF) (hl : p.length = b.dimension) (hd : d.length = p.length)
    (hp : ∀ c ∈ p, c < 3) :
    ∃ r, b.check_win_dir p d = .ok r :=
  ⟨_, check_win_dir_valid b p d hw hl hd hp⟩

theorem get_no_err (b : Board) (p : List ℕ) (hl : p.length = b.dimension)
    (hp : ∀ c ∈ p, c ≤ 3) : ∀ e, b.get p ≠ .err e := by
  intro e
  have hany : p.any (fun v => decide (3 < v)) = false := by
    rw [List.any_eq_false]
    intro c hc
    simp only [decide_eq_true_eq]
    have := hp c hc
    omega
  unfold Board.get
  rw [if_neg (by omega), if_neg (by simp [hany])]
  split <;> simp

theorem check_win_dir_no_err (b : Board) (p : List ℕ) (d : List ℤ)
    (hl : p.length = b.dimension) (hd : d.length = p.length)
    (hp : ∀ c ∈ p, c ≤ 3) :
    ∀ e, b.check_win_dir p d ≠ .err e := by
  intro e h
  have l1 : (stepPos p d).length = b.dimension := by
    rw [length_stepPos]; omega
  have l2 : (stepPos (stepPos p d) d).length = b.dimension := by
    rw [length_stepPos, length_stepPos]; omega
  have c1 : ∀ c ∈ stepPos p d, c ≤ 3 :=
    fun c hc => le_of_lt (stepPos_lt_three p d c hc)
  have c2 : ∀ c ∈ stepPos (stepPos p d) d, c ≤ 3 :=
    fun c hc => le_of_lt (stepPos_lt_three _ d c hc)
  unfold Board.check_win_dir at h
  rw [if_neg (by omega)] at h
  split at h
  · rename_i e0 h0
    exact get_no_err b p hl hp e0 h0
  · exact absurd h (by simp)
  · split at h
    · exact absurd h (by simp)
    · split at h
      · rename_i e0 h0
        exact get_no_err b (stepPos p d) l1 c1 e0 h0
      · exact absurd h (by simp)
      · split at h
        · exact absurd h (by simp)
        · split at h
          · rename_i e0 h0
            exact get_no_err b (stepPos (stepPos p d) d) l2 c2 e0 h0
          · exact absurd h (by simp)
          · split at h
            · exact absurd h (by simp)
            · exact absurd h (by simp)

/-! ### The enumeration loop of `is_win_at` -/

theorem isWinLoop_zero (b : Board) (pos : List ℕ) (dir : List ℤ) :
    b.isWinLoop pos 0 dir = if dir.headI ≤ 0 then .fatal else .ok false := rfl

theorem isWinLoop_succ (b : Board) (pos : List ℕ) (fuel : ℕ) (dir : List ℤ) :
    b.isWinLoop pos (fuel + 1) dir =
      if dir.headI ≤ 0 then
        (if dir.all (fun n => n == 0) then
          match stepDir dir with
          | (_, true) => .fatal
          | (dir2, false) => b.isWinLoop pos fuel dir2
        else
          match b.check_win_dir pos dir with
          | .ok true => .ok true
          | .ok false =>
            match stepDir dir with
            | (_, true) => .fatal
            | (dir2, false) => b.isWinLoop pos fuel dir2
          | .err e => .err e
          | .fatal => .fatal)
      else .ok false := rfl

theorem isWinLoop_valVec (b : Board) (p : List ℕ) (E : ℕ)
    (hck : ∀ e : List ℤ, (∀ x ∈ e, -1 ≤ x ∧ x ≤ 1) → e.length = E + 1 →
      ∃ r, b.check_win_dir p e = .ok r) :
    ∀ fuel n, fuel = 2 * 3 ^ E - n → n ≤ 2 * 3 ^ E →
      b.isWinLoop p fuel (valVec (E + 1) n)
        = .ok ((List.range' n (2 * 3 ^ E - n)).any
            (fun m => !((valVec (E + 1) m).all (fun z => z == 0))
              && decide (b.check_win_dir p (valVec (E + 1) m) = .ok true))) := by
  have hKlt : 2 * 3 ^ E < 3 ^ (E + 1) := by
    have : (3:ℕ) ^ (E + 1) = 3 ^ E * 3 := pow_succ 3 E
    have h1 : 0 < 3 ^ E := pow_pos (by norm_num) E
    omega
  intro fuel
  induction fuel with
  | zero =>
    intro n hf hn
    have hnK : n = 2 * 3 ^ E := by omega
    subst hnK
    have hhead : ¬ (valVec (E + 1) (2 * 3 ^ E)).headI ≤ 0 := by
      rw [headI_valVec E _ (by omega)]
      omega
    rw [isWinLoop_zero, if_neg hhead]
    simp
  | succ fuel' ih =>
    intro n hf hn
    have hnK : n < 2 * 3 ^ E := by omega
    have hhead : (valVec (E + 1) n).headI ≤ 0 := by
      rw [headI_valVec E _ (by omega)]
      omega
    have hstep : stepDir (valVec (E + 1) n) = (valVec (E + 1) (n + 1), false) :=
      stepDir_valVec (E + 1) (by omega) n (by omega)
    have hrec := ih (n + 1) (by omega) (by omega)
    have hrange : List.range' n (2 * 3 ^ E - n)
        = n :: List.range' (n + 1) (2 * 3 ^ E - (n + 1)) := by
      have : 2 * 3 ^ E - n = (2 * 3 ^ E - (n + 1)) + 1 := by omega
      rw [this, List.range'_succ]
    rw [isWinLoop_succ, if_pos hhead]
    by_cases hz : (valVec (E + 1) n).all (fun z => z == 0)
    · rw [if_pos hz]
      simp only [hstep]
      rw [hrec, hrange]
      simp only [List.any_cons, hz, Bool.not_true, Bool.false_and, Bool.false_or]
    · rw [if_neg hz]
      obtain ⟨r, hr⟩ := hck (valVec (E + 1) n) (valVec_mem_range _ n)
        (length_valVec _ n)
      cases r with
      | true =>
        simp only [hr]
        rw [hrange]
        simp only [List.any_cons, hz, Bool.not_false, Bool.true_and, hr,
          decide_eq_true_eq]
        simp
      | false =>
        simp only [hr, hstep]
        rw [hrec, hrange]
        simp only [List.any_cons, hz, Bool.not_false, Bool.true_and, hr]
        have hdf : decide (RRes.ok false = (RRes.ok true : RRes Error Bool)) = false := by
          simp
        rw [hdf]
        simp

theorem any_map_general (f : ℕ → List ℤ) (l : List ℕ) (p : List ℤ → Bool) :
    (l.map f).any p = l.any (fun x => p (f x)) := by
  induction l with
  | nil => rfl
  | cons a t ih => simp [ih]

theorem mem_candSeq (D : ℕ) (e : List ℤ) (he : e ∈ candSeq D) :
    e.length = D ∧ (∀ x ∈ e, -1 ≤ x ∧ x ≤ 1) := by
  rw [candSeq, List.mem_map] at he
  obtain ⟨n, _, rfl⟩ := he
  exact ⟨length_valVec D n, valVec_mem_range D n⟩

theorem mem_candSeq_of (d : List ℤ) (D : ℕ) (hlen : d.length = D) (hD : 1 ≤ D)
    (hin : ∀ x ∈ d, -1 ≤ x ∧ x ≤ 1) (hh : d.headI ≤ 0) : d ∈ candSeq D := by
  rw [candSeq, List.mem_map]
  have hne : d ≠ [] := by
    intro hc
    rw [hc] at hlen
    simp at hlen
    omega
  refine ⟨dirVal d, ?_, ?_⟩
  · rw [List.mem_range, ← hlen]
    exact dirVal_head_lt d hin hne hh
  · have := valVec_dirVal d hin
    rw [hlen] at this
    exact this

theorem is_win_at_eq (b : Board) (p : List ℕ) (hw : b.WF)
    (hl : p.length = b.dimension) (hD : 1 ≤ p.length) (hp : ∀ c ∈ p, c < 3) :
    b.is_win_at p = .ok ((candSeq p.length).any
      (fun d => !(d.all (fun z => z == 0))
        && decide (b.check_win_dir p d = .ok true))) := by
  obtain ⟨E, hE⟩ : ∃ E, p.length = E + 1 := ⟨p.length - 1, by omega⟩
  have hck : ∀ e : List ℤ, (∀ x ∈ e, -1 ≤ x ∧ x ≤ 1) → e.length = E + 1 →
      ∃ r, b.check_win_dir p e = .ok r := fun e hr hl2 =>
    check_win_dir_ok b p e hw hl (by omega) hp
  have h0 := isWinLoop_valVec b p E hck (2 * 3 ^ E) 0 (by omega) (by omega)
  rw [valVec_zero, Nat.sub_zero] at h0
  unfold Board.is_win_at
  rw [if_neg (by omega), hE]
  simp only [Nat.add_sub_cancel]
  rw [h0, candSeq]
  simp only [Nat.add_sub_cancel]
  congr 1
  rw [List.range_eq_range', any_map_general]

theorem is_win_at_total (b : Board) (p : List ℕ) (hw : b.WF)
    (hl : p.length = b.dimension) (hD : 1 ≤ p.length) (hp : ∀ c ∈ p, c < 3) :
    b.is_win_at p = .ok true ∨ b.is_win_at p = .ok false := by
  rw [is_win_at_eq b p hw hl hD hp]
  cases ((candSeq p.length).any
      (fun d => !(d.all (fun z => z == 0))
        && decide (b.check_win_dir p d = .ok true))) <;> simp

theorem is_win_at_true_iff (b : Board) (p : List ℕ) (hw : b.WF)
    (hl : p.length = b.dimension) (hD : 1 ≤ p.length) (hp : ∀ c ∈ p, c < 3) :
    b.is_win_at p = .ok true
      ↔ ∃ e ∈ nonzeroCands p.length, b.check_win_dir p e = .ok true := by
  rw [is_win_at_eq b p hw hl hD hp]
  constructor
  · intro h
    have hany : ((candSeq p.length).any
        (fun d => !(d.all (fun z => z == 0))
          && decide (b.check_win_dir p d = .ok true))) = true := by
      cases hcc : ((candSeq p.length).any
          (fun d => !(d.all (fun z => z == 0))
            && decide (b.check_win_dir p d = .ok true)))
      · rw [hcc] at h
        exact absurd h (by simp)
      · rfl
    rw [List.any_eq_true] at hany
    obtain ⟨d, hd, hpd⟩ := hany
    rw [Bool.and_eq_true, decide_eq_true_eq] at hpd
    exact ⟨d, by rw [nonzeroCands, List.mem_filter]; exact ⟨hd, hpd.1⟩, hpd.2⟩
  · rintro ⟨e, he, hce⟩
    rw [nonzeroCands, List.mem_filter] at he
    have hany : ((candSeq p.length).any
        (fun d => !(d.all (fun z => z == 0))
          && decide (b.check_win_dir p d = .ok true))) = true := by
      rw [List.any_eq_true]
      exact ⟨e, he.1, by rw [Bool.and_eq_true, decide_eq_true_eq]; exact ⟨he.2, hce⟩⟩
    rw [hany]

theorem is_win_at_false_all (b : Board) (p : List ℕ) (hw : b.WF)
    (hl : p.length = b.dimension) (hD : 1 ≤ p.length) (hp : ∀ c ∈ p, c < 3)
    (h : b.is_win_at p = .ok false) :
    ∀ e ∈ nonzeroCands p.length, b.check_win_dir p e = .ok false := by
  intro e he
  rw [nonzeroCands, List.mem_filter] at he
  obtain ⟨hlen, hin⟩ := mem_candSeq p.length e he.1
  obtain ⟨r, hr⟩ := check_win_dir_ok b p e hw hl (by omega) hp
  cases r with
  | false => exact hr
  | true =>
    exfalso
    have := (is_win_at_true_iff b p hw hl hD hp).mpr
      ⟨e, by rw [nonzeroCands, List.mem_filter]; exact he, hr⟩
    rw [this] at h
    exact absurd h (by simp)

/-! ### The instrumented trace loop -/

theorem isWinTraceLoop_zero (b : Board) (pos : List ℕ) (dir : List ℤ)
    (acc : List (List ℤ)) :
    b.isWinTraceLoop pos 0 dir acc
      = if dir.headI ≤ 0 then (.fatal, acc) else (.ok false, acc) := rfl

theorem isWinTraceLoop_succ (b : Board) (pos : List ℕ) (fuel : ℕ) (dir : List ℤ)
    (acc : List (List ℤ)) :
    b.isWinTraceLoop pos (fuel + 1) dir acc =
      if dir.headI ≤ 0 then
        (if dir.all (fun n => n == 0) then
          match stepDir dir with
          | (_, true) => (.fatal, acc)
          | (dir2, false) => b.isWinTraceLoop pos fuel dir2 acc
        else
          match b.check_win_dir pos dir with
          | .ok true => (.ok true, acc ++ [dir])
          | .ok false =>
            match stepDir dir with
            | (_, true) => (.fatal, acc ++ [dir])
            | (dir2, false) => b.isWinTraceLoop pos fuel dir2 (acc ++ [dir])
          | .err e => (.err e, acc ++ [dir])
          | .fatal => (.fatal, acc ++ [dir]))
      else (.ok false, acc) := rfl

theorem isWinTraceLoop_fst (b : Board) (pos : List ℕ) :
    ∀ fuel (dir : List ℤ) (acc : List (List ℤ)),
      (b.isWinTraceLoop pos fuel dir acc).1 = b.isWinLoop pos fuel dir := by
  intro fuel
  induction fuel with
  | zero =>
    intro dir acc
    rw [isWinTraceLoop_zero, isWinLoop_zero]
    split <;> rfl
  | succ f ih =>
    intro dir acc
    rw [isWinTraceLoop_succ, isWinLoop_succ]
    by_cases hh : dir.headI ≤ 0
    · rw [if_pos hh, if_pos hh]
      by_cases hz : dir.all (fun n => n == 0)
      · rw [if_pos hz, if_pos hz]
        rcases hs : stepDir dir with ⟨d2, c⟩
        cases c
        · simp only [hs]
          exact ih d2 acc
        · simp only [hs]
      · rw [if_neg hz, if_neg hz]
        cases hc : b.check_win_dir pos dir with
        | ok r =>
          cases r
          · simp only [hc]
            rcases hs : stepDir dir with ⟨d2, c⟩
            cases c
            · simp only [hs]
              exact ih d2 (acc ++ [dir])
            · simp only [hs]
          · simp only [hc]
        | err e => simp only [hc]
        | fatal => simp only [hc]
    · rw [if_neg hh, if_neg hh]

theorem is_win_at_trace_fst (b : Board) (pos : List ℕ) :
    (b.is_win_at_trace pos).1 = b.is_win_at pos := by
  unfold Board.is_win_at_trace Board.is_win_at
  split
  · rfl
  · exact isWinTraceLoop_fst b pos _ _ _

theorem isWinTraceLoop_nowin (b : Board) (p : List ℕ) (E : ℕ)
    (hnw : ∀ m, m < 2 * 3 ^ E →
      ((valVec (E + 1) m).all (fun z => z == 0)) = false →
      b.check_win_dir p (valVec (E + 1) m) = .ok false) :
    ∀ fuel n acc, fuel = 2 * 3 ^ E - n → n ≤ 2 * 3 ^ E →
      (b.isWinTraceLoop p fuel (valVec (E + 1) n) acc).2
        = acc ++ ((List.range' n (2 * 3 ^ E - n)).map (valVec (E + 1))).filter
            (fun d => !(d.all (fun z => z == 0))) := by
  have hKlt : 2 * 3 ^ E < 3 ^ (E + 1) := by
    have : (3:ℕ) ^ (E + 1) = 3 ^ E * 3 := pow_succ 3 E
    have h1 : 0 < 3 ^ E := pow_pos (by norm_num) E
    omega
  intro fuel
  induction fuel with
  | zero =>
    intro n acc hf hn
    have hnK : n = 2 * 3 ^ E := by omega
    subst hnK
    have hhead : ¬ (valVec (E + 1) (2 * 3 ^ E)).headI ≤ 0 := by
      rw [headI_valVec E _ (by omega)]
      omega
    rw [isWinTraceLoop_zero, if_neg hhead]
    simp
  | succ fuel' ih =>
    intro n acc hf hn
    have hnK : n < 2 * 3 ^ E := by omega
    have hhead : (valVec (E + 1) n).headI ≤ 0 := by
      rw [headI_valVec E _ (by omega)]
      omega
    have hstep : stepDir (valVec (E + 1) n) = (valVec (E + 1) (n + 1), false) :=
      stepDir_valVec (E + 1) (by omega) n (by omega)
    have hrange : List.range' n (2 * 3 ^ E - n)
        = n :: List.range' (n + 1) (2 * 3 ^ E - (n + 1)) := by
      have : 2 * 3 ^ E - n = (2 * 3 ^ E - (n + 1)) + 1 := by omega
      rw [this, List.range'_succ]
    rw [isWinTraceLoop_succ, if_pos hhead]
    by_cases hz : (valVec (E + 1) n).all (fun z => z == 0)
    · rw [if_pos hz]
      simp only [hstep]
      rw [ih (n + 1) acc (by omega) (by omega), hrange]
      simp only [List.map_cons, List.filter_cons, hz, Bool.not_true]
      rfl
    · rw [if_neg hz]
      have hc := hnw n hnK (by simpa using hz)
      simp only [hc, hstep]
      rw [ih (n + 1) (acc ++ [valVec (E + 1) n]) (by omega) (by omega), hrange]
      simp only [List.map_cons, List.filter_cons]
      have hzf : (!(valVec (E + 1) n).all fun z => z == 0) = true := by
        simpa using hz
      rw [hzf]
      simp [List.append_assoc]

theorem is_win_at_trace_nowin (b : Board) (p : List ℕ) (hw : b.WF)
    (hl : p.length = b.dimension) (hD : 1 ≤ p.length) (hp : ∀ c ∈ p, c < 3)
    (h : b.is_win_at p = .ok false) :
    (b.is_win_at_trace p).2 = nonzeroCands p.length := by
  obtain ⟨E, hE⟩ : ∃ E, p.length = E + 1 := ⟨p.length - 1, by omega⟩
  have hall := is_win_at_false_all b p hw hl hD hp h
  have hnw : ∀ m, m < 2 * 3 ^ E →
      ((valVec (E + 1) m).all (fun z => z == 0)) = false →
      b.check_win_dir p (valVec (E + 1) m) = .ok false := by
    intro m hm hz
    apply hall
    rw [nonzeroCands, List.mem_filter]
    constructor
    · rw [hE, candSeq]
      simp only [Nat.add_sub_cancel]
      exact List.mem_map.mpr ⟨m, List.mem_range.mpr hm, rfl⟩
    · simpa using hz
  unfold Board.is_win_at_trace
  rw [if_neg (by omega), hE]
  simp only [Nat.add_sub_cancel]
  rw [← valVec_zero (E + 1)]
  have htr := isWinTraceLoop_nowin b p E hnw (2 * 3 ^ E) 0 [] (by omega) (by omega)
  rw [Nat.sub_zero] at htr
  rw [htr, nonzeroCands, candSeq]
  simp only [Nat.add_sub_cancel, List.nil_append, List.range_eq_range']

/-! ### Counting the tested candidate directions -/

theorem countP_not_add (l : List ℕ) (p : ℕ → Bool) :
    l.countP p + l.countP (fun a => !(p a)) = l.length := by
  induction l with
  | nil => rfl
  | cons a t ih =>
    rw [List.countP_cons, List.countP_cons, List.length_cons]
    cases ha : p a <;> simp [ha] <;> omega

theorem countP_eq_one_of_unique (K : ℕ) :
    ∀ (z : ℕ) (p : ℕ → Bool), z < K → p z = true →
      (∀ m, m < K → p m = true → m = z) → (List.range K).countP p = 1 := by
  induction K with
  | zero => omega
  | succ K ih =>
    intro z p hz hpz huni
    rw [List.range_succ, List.countP_append]
    by_cases hzK : z = K
    · subst hzK
      have h0 : (List.range z).countP p = 0 := by
        rw [List.countP_eq_zero]
        intro m hm
        rw [List.mem_range] at hm
        intro hc
        have := huni m (by omega) hc
        omega
      rw [h0]
      simp [hpz]
    · have hK : p K = false := by
        cases hc : p K
        · rfl
        · have := huni K (by omega) hc
          omega
      rw [ih z p (by omega) hpz (fun m hm hp => huni m (by omega) hp)]
      simp [hK]

theorem length_candSeq (D : ℕ) : (candSeq D).length = 2 * 3 ^ (D - 1) := by
  simp [candSeq]

theorem length_nonzeroCands (D : ℕ) (hD : 1 ≤ D) :
    (nonzeroCands D).length = 2 * 3 ^ (D - 1) - 1 := by
  have hKlt : 2 * 3 ^ (D - 1) < 3 ^ D := by
    have h2 : 3 ^ D = 3 ^ (D - 1) * 3 := by
      rw [← pow_succ]
      congr 1
      omega
    have h1 : 0 < 3 ^ (D - 1) := pow_pos (by norm_num) (D - 1)
    omega
  have hrep_in : ∀ x ∈ List.replicate D (0:ℤ), -1 ≤ x ∧ x ≤ 1 := by
    intro x hx
    rw [List.eq_of_mem_replicate hx]
    omega
  have hzK : dirVal (List.replicate D (0:ℤ)) < 2 * 3 ^ (D - 1) := by
    have hh : (List.replicate D (0:ℤ)).headI ≤ 0 := by
      cases D with
      | zero => omega
      | succ n => simp [List.replicate_succ]
    have h := dirVal_head_lt (List.replicate D 0) hrep_in (by simp; omega) hh
    simpa using h
  have hvz : valVec D (dirVal (List.replicate D (0:ℤ))) = List.replicate D 0 := by
    have := valVec_dirVal (List.replicate D (0:ℤ)) hrep_in
    rwa [List.length_replicate] at this
  have hone : (List.range (2 * 3 ^ (D - 1))).countP
      (fun m => ((valVec D m).all (fun z => z == 0))) = 1 := by
    apply countP_eq_one_of_unique _ (dirVal (List.replicate D (0:ℤ))) _ hzK
    · rw [hvz]
      simp
    · intro m hm hp
      have hmz : valVec D m = List.replicate D 0 := by
        have hall : ∀ x ∈ valVec D m, x = 0 := by
          rw [List.all_eq_true] at hp
          intro x hx
          simpa using hp x hx
        have := List.eq_replicate_of_mem hall
        rwa [length_valVec] at this
      have h1 : dirVal (valVec D m) = m := dirVal_valVec D m (by omega)
      rw [hmz] at h1
      omega
  have hsplit := countP_not_add (List.range (2 * 3 ^ (D - 1)))
    (fun m => ((valVec D m).all (fun z => z == 0)))
  rw [nonzeroCands, candSeq, ← List.countP_eq_length_filter, List.countP_map]
  have hcomp : ((fun d : List ℤ => !(d.all (fun z => z == 0))) ∘ valVec D)
      = (fun m => !((valVec D m).all (fun z => z == 0))) := rfl
  rw [hcomp]
  rw [List.length_range] at hsplit
  omega

/-! ### `is_win_at` never returns an error on positions accepted by `get_mut` -/

theorem isWinLoop_no_err (b : Board) (pos : List ℕ)
    (hl : pos.length = b.dimension) (hp : ∀ c ∈ pos, c ≤ 3) :
    ∀ fuel (dir : List ℤ), dir.length = pos.length →
      ∀ e, b.isWinLoop pos fuel dir ≠ .err e := by
  intro fuel
  induction fuel with
  | zero =>
    intro dir hdl e
    rw [isWinLoop_zero]
    split <;> simp
  | succ f ih =>
    intro dir hdl e
    rw [isWinLoop_succ]
    by_cases hh : dir.headI ≤ 0
    · rw [if_pos hh]
      by_cases hz : dir.all (fun n => n == 0)
      · rw [if_pos hz]
        rcases hs : stepDir dir with ⟨d2, c⟩
        have hd2 : d2.length = pos.length := by
          have hlen := stepDir_length dir
          rw [hs] at hlen
          simp only at hlen
          omega
        cases c
        · simp only [hs]
          exact ih d2 hd2 e
        · simp only [hs]
          simp
      · rw [if_neg hz]
        cases hc : b.check_win_dir pos dir with
        | ok r =>
          cases r
          · simp only [hc]
            rcases hs : stepDir dir with ⟨d2, c⟩
            have hd2 : d2.length = pos.length := by
              have hlen := stepDir_length dir
              rw [hs] at hlen
              simp only at hlen
              omega
            cases c
            · simp only [hs]
              exact ih d2 hd2 e
            · simp only [hs]
              simp
          · simp only [hc]
            simp
        | err e2 =>
          exact absurd hc (check_win_dir_no_err b pos dir hl hdl hp e2)
        | fatal =>
          simp only [hc]
          simp
    · rw [if_neg hh]
      simp

theorem is_win_at_no_err (b : Board) (pos : List ℕ)
    (hl : pos.length = b.dimension) (hp : ∀ c ∈ pos, c ≤ 3) :
    ∀ e, b.is_win_at pos ≠ .err e := by
  intro e
  unfold Board.is_win_at
  split
  · simp
  · exact isWinLoop_no_err b pos hl hp _ _ (by simp) e

/-! ### `place_piece` path lemmas -/

theorem placeRest_ok_inv (b : Board) (player : ℕ) (p : List ℕ) (w : Bool)
    (d2 : List ℕ) (h : b.placeRest player p = (.ok w, d2)) :
    ∃ v, b.get_mut p = .ok (posOffset p, v) ∧ v = 0
      ∧ d2 = b.data.set (posOffset p) player
      ∧ (Board.mk b.dimension (b.data.set (posOffset p) player)).is_win_at p
          = .ok w := by
  cases hg : b.get_mut p with
  | err e =>
    simp only [Board.placeRest, hg] at h
    simp at h
  | fatal =>
    simp only [Board.placeRest, hg] at h
    simp at h
  | ok iv =>
    obtain ⟨idx, v⟩ := iv
    obtain ⟨hidx, hget⟩ := get_mut_ok_inv b p idx v hg
    subst hidx
    simp only [Board.placeRest, hg] at h
    by_cases hv : v ≠ 0
    · rw [if_pos hv] at h
      simp at h
    · rw [if_neg hv] at h
      push_neg at hv
      cases hwin : (Board.mk b.dimension
          (b.data.set (posOffset p) player)).is_win_at p with
      | ok w2 =>
        simp only [hwin] at h
        simp only [Prod.mk.injEq, RRes.ok.injEq] at h
        obtain ⟨hw2, hd2⟩ := h
        subst hw2
        exact ⟨v, rfl, hv, hd2.symm, rfl⟩
      | err e =>
        simp only [hwin] at h
        simp at h
      | fatal =>
        simp only [hwin] at h
        simp at h

theorem placeRest_err_data (b : Board) (player : ℕ) (p : List ℕ) :
    ∀ e, (b.placeRest player p).1 = .err e → (b.placeRest player p).2 = b.data := by
  intro e h
  cases hg : b.get_mut p with
  | err e2 => simp only [Board.placeRest, hg]
  | fatal => simp only [Board.placeRest, hg]
  | ok iv =>
    obtain ⟨idx, v⟩ := iv
    obtain ⟨hidx, hget⟩ := get_mut_ok_inv b p idx v hg
    obtain ⟨hlen, hple, _⟩ := get_ok_inv b p v hget
    simp only [Board.placeRest, hg] at h ⊢
    by_cases hv : v ≠ 0
    · rw [if_pos hv]
    · rw [if_neg hv] at h ⊢
      cases hwin : (Board.mk b.dimension (b.data.set idx player)).is_win_at p with
      | ok w =>
        simp only [hwin] at h
        simp at h
      | err e2 =>
        exact absurd hwin (is_win_at_no_err
          (Board.mk b.dimension (b.data.set idx player)) p hlen hple e2)
      | fatal =>
        simp only [hwin] at h
        simp at h

theorem placeRest_no_unsupported (b : Board) (player : ℕ) (p : List ℕ) :
    (b.placeRest player p).1 ≠ .err (.PlaceError .Unsupported) := by
  cases hg : b.get_mut p with
  | err e2 => simp [Board.placeRest, hg]
  | fatal => simp [Board.placeRest, hg]
  | ok iv =>
    obtain ⟨idx, v⟩ := iv
    obtain ⟨hidx, hget⟩ := get_mut_ok_inv b p idx v hg
    obtain ⟨hlen, hple, _⟩ := get_ok_inv b p v hget
    simp only [Board.placeRest, hg]
    by_cases hv : v ≠ 0
    · rw [if_pos hv]
      simp
    · rw [if_neg hv]
      cases hwin : (Board.mk b.dimension (b.data.set idx player)).is_win_at p with
      | ok w => simp [hwin]
      | err e2 =>
        exact absurd hwin (is_win_at_no_err
          (Board.mk b.dimension (b.data.set idx player)) p hlen hple e2)
      | fatal => simp [hwin]

theorem placeRest_prewrite_no_err (b : Board) (player : ℕ) (p : List ℕ)
    (idx v : ℕ) (hg : b.get_mut p = .ok (idx, v)) (hv : v = 0) :
    ∀ e, (b.placeRest player p).1 ≠ .err e := by
  intro e
  obtain ⟨hidx, hget⟩ := get_mut_ok_inv b p idx v hg
  obtain ⟨hlen, hple, _⟩ := get_ok_inv b p v hget
  simp only [Board.placeRest, hg]
  rw [if_neg (by omega)]
  cases hwin : (Board.mk b.dimension (b.data.set idx player)).is_win_at p with
  | ok w => simp [hwin]
  | err e2 =>
    exact absurd hwin (is_win_at_no_err
      (Board.mk b.dimension (b.data.set idx player)) p hlen hple e2)
  | fatal => simp [hwin]

theorem place_piece_eq_placeRest_low (b : Board) (player : ℕ) (p : List ℕ)
    (h : ¬ 1 < highestAxis p) :
    b.place_piece player p = b.placeRest player p := by
  simp [Board.place_piece, h]

theorem place_piece_eq_placeRest_supported (b : Board) (player : ℕ) (p : List ℕ)
    (s : ℕ) (h : 1 < highestAxis p) (hs : b.get (supportingPos p) = .ok s)
    (hs0 : s ≠ 0) :
    b.place_piece player p = b.placeRest player p := by
  simp only [Board.place_piece, if_pos h, hs]
  rw [if_neg hs0]

theorem place_piece_unsupported (b : Board) (player : ℕ) (p : List ℕ)
    (h : 1 < highestAxis p) (hs : b.get (supportingPos p) = .ok 0) :
    b.place_piece player p = (.err (.PlaceError .Unsupported), b.data) := by
  simp only [Board.place_piece, if_pos h, hs]
  simp

theorem place_piece_err_data (b : Board) (player : ℕ) (p : List ℕ) :
    ∀ e, (b.place_piece player p).1 = .err e
      → (b.place_piece player p).2 = b.data := by
  intro e h
  by_cases hh : 1 < highestAxis p
  · simp only [Board.place_piece, if_pos hh] at h ⊢
    cases hs : b.get (supportingPos p) with
    | ok s =>
      simp only [hs] at h ⊢
      by_cases hs0 : s = 0
      · rw [if_pos hs0]
      · rw [if_neg hs0] at h ⊢
        exact placeRest_err_data b player p e h
    | err e2 => simp only [hs]
    | fatal => simp only [hs]
  · simp only [Board.place_piece, if_neg hh] at h ⊢
    exact placeRest_err_data b player p e h

theorem place_ok_inv (b : Board) (player : ℕ) (p : List ℕ) (w : Bool)
    (d2 : List ℕ) (h : b.place_piece player p = (.ok w, d2)) :
    ∃ v, b.get_mut p = .ok (posOffset p, v) ∧ v = 0
      ∧ d2 = b.data.set (posOffset p) player
      ∧ (Board.mk b.dimension (b.data.set (posOffset p) player)).is_win_at p
          = .ok w := by
  by_cases hh : 1 < highestAxis p
  · simp only [Board.place_piece, if_pos hh] at h
    cases hs : b.get (supportingPos p) with
    | ok s =>
      simp only [hs] at h
      by_cases hs0 : s = 0
      · rw [if_pos hs0] at h
        simp at h
      · rw [if_neg hs0] at h
        exact placeRest_ok_inv b player p w d2 h
    | err e2 =>
      simp only [hs] at h
      simp at h
    | fatal =>
      simp only [hs] at h
      simp at h
  · simp only [Board.place_piece, if_neg hh] at h
    exact placeRest_ok_inv b player p w d2 h

/-! ### Cell-buffer writes -/

theorem getD_set_self (l : List ℕ) (i x : ℕ) (h : i < l.length) :
    (l.set i x).getD i 0 = x := by
  rw [List.getD_eq_getElem _ _ (by simpa using h)]
  exact List.getElem_set_self _

theorem getD_set_ne (l : List ℕ) (i j x : ℕ) (h : i ≠ j) :
    (l.set i x).getD j 0 = l.getD j 0 := by
  simp [List.getD_eq_getElem?_getD, List.getElem?_set_ne h]

theorem WF_set (b : Board) (idx v : ℕ) (hw : b.WF) :
    (Board.mk b.dimension (b.data.set idx v)).WF := by
  simp only [Board.WF, List.length_set]
  exact hw

theorem mk_data (dim : ℕ) (l : List ℕ) : (Board.mk dim l).data = l := rfl

/-- On a well-formed board whose three wrapped-line cells all hold a nonzero
player, `is_win_at` at any cell of the line returns true: one of `d` and its
negation is among the loop's candidates, and the line check along it visits
exactly the line's cells. -/
theorem line_filled_wins (b : Board) (player : ℕ) (q : List ℕ) (d : List ℤ)
    (k0 : ℕ) (hw : b.WF) (hD : 1 ≤ b.dimension) (hql : q.length = b.dimension)
    (hqc : ∀ c ∈ q, c < 3) (hdl : d.length = b.dimension)
    (hin : ∀ x ∈ d, -1 ≤ x ∧ x ≤ 1) (hnz : ∃ x ∈ d, x ≠ 0) (hpl : player ≠ 0)
    (hcells : ∀ k, b.data.getD (posOffset (lineCell q d k)) 0 = player) :
    b.is_win_at (lineCell q d k0) = .ok true := by
  have hplen : (lineCell q d k0).length = b.dimension := by
    rw [length_lineCell]; omega
  have hpc := lineCell_lt_three q d k0
  have hdlp : d.length = (lineCell q d k0).length := by
    rw [length_lineCell]; omega
  have hDp : 1 ≤ (lineCell q d k0).length := by omega
  have hallfalse : d.all (fun z => z == 0) = false := by
    rw [List.all_eq_false]
    obtain ⟨x, hx, hxne⟩ := hnz
    exact ⟨x, hx, by simpa using hxne⟩
  apply (is_win_at_true_iff b (lineCell q d k0) hw hplen hDp hpc).mpr
  by_cases hh : d.headI ≤ 0
  · -- the direction itself is enumerated
    refine ⟨d, ?_, ?_⟩
    · apply List.mem_filter.mpr
      refine ⟨mem_candSeq_of d (lineCell q d k0).length (by omega) hDp hin hh, ?_⟩
      simp [hallfalse]
    · have hstep1 : stepPos (lineCell q d k0) d = lineCell q d (k0 + 1) :=
        stepPos_lineCell q d k0
      have hstep2 : stepPos (stepPos (lineCell q d k0) d) d
          = lineCell q d (k0 + 2) := by
        rw [hstep1]
        exact stepPos_lineCell q d (k0 + 1)
      have hck := check_win_dir_valid b (lineCell q d k0) d hw hplen hdlp hpc
      rw [hstep2, hstep1] at hck
      rw [hck]
      refine congrArg RRes.ok (decide_eq_true ?_)
      rw [hcells k0, hcells (k0 + 1), hcells (k0 + 2)]
      exact ⟨hpl, rfl, rfl⟩
  · -- the negation of the direction is enumerated
    have hnlen : (negDir d).length = d.length := by simp [negDir]
    have hnin : ∀ x ∈ negDir d, -1 ≤ x ∧ x ≤ 1 := by
      intro x hx
      rw [negDir, List.mem_map] at hx
      obtain ⟨y, hy, rfl⟩ := hx
      have := hin y hy
      omega
    have hnnz : ∃ x ∈ negDir d, x ≠ 0 := by
      obtain ⟨x0, hx0, hx0ne⟩ := hnz
      exact ⟨-x0, by rw [negDir]; exact List.mem_map.mpr ⟨x0, hx0, rfl⟩,
        by omega⟩
    have hnallfalse : (negDir d).all (fun z => z == 0) = false := by
      rw [List.all_eq_false]
      obtain ⟨x, hx, hxne⟩ := hnnz
      exact ⟨x, hx, by simpa using hxne⟩
    have hnhead : (negDir d).headI ≤ 0 := by
      cases d with
      | nil =>
        exfalso
        simp at hdl
        omega
      | cons c t =>
        have hc := hin c (by simp)
        simp only [List.headI] at hh
        simp only [negDir, List.map_cons, List.headI]
        omega
    refine ⟨negDir d, ?_, ?_⟩
    · apply List.mem_filter.mpr
      refine ⟨mem_candSeq_of (negDir d) (lineCell q d k0).length (by omega)
        hDp hnin hnhead, ?_⟩
      simp [hnallfalse]
    · have hstep1 : stepPos (lineCell q d k0) (negDir d)
          = lineCell q d (k0 + 2) := stepPos_neg_lineCell q d k0
      have hstep2 : stepPos (stepPos (lineCell q d k0) (negDir d)) (negDir d)
          = lineCell q d (k0 + 4) := by
        rw [hstep1]
        have := stepPos_neg_lineCell q d (k0 + 2)
        rwa [show k0 + 2 + 2 = k0 + 4 by ring] at this
      have hck := check_win_dir_valid b (lineCell q d k0) (negDir d) hw hplen
        (by omega) hpc
      rw [hstep2, hstep1] at hck
      rw [hck]
      refine congrArg RRes.ok (decide_eq_true ?_)
      rw [hcells k0, hcells (k0 + 2), hcells (k0 + 4)]
      exact ⟨hpl, rfl, rfl⟩

/-- On a well-formed board where every valid cell except `p` and at most one
other cell `c1` is empty, `is_win_at p` returns false: every candidate line
through `p` visits three pairwise distinct cells, at least one of which is
empty. -/
theorem two_cells_no_win (b : Board) (player : ℕ) (p c1 : List ℕ)
    (hw : b.WF) (hD : 1 ≤ b.dimension) (hplen : p.length = b.dimension)
    (hpc : ∀ c ∈ p, c < 3) (hpl : player ≠ 0)
    (hbp : b.data.getD (posOffset p) 0 = player)
    (hsparse : ∀ r : List ℕ, r.length = b.dimension → (∀ c ∈ r, c < 3) →
      r ≠ p → r ≠ c1 → b.data.getD (posOffset r) 0 = 0) :
    b.is_win_at p = .ok false := by
  have hDp : 1 ≤ p.length := by omega
  rcases is_win_at_total b p hw hplen hDp hpc with ht | hf
  · exfalso
    obtain ⟨e, he, hce⟩ := (is_win_at_true_iff b p hw hplen hDp hpc).mp ht
    have hef := List.mem_filter.mp he
    obtain ⟨helen, hein⟩ := mem_candSeq p.length e hef.1
    have henz : ∃ x ∈ e, x ≠ 0 := by
      have hall : e.all (fun z => z == 0) = false := by
        have := hef.2
        simpa using this
      rw [List.all_eq_false] at hall
      obtain ⟨x, hx, hxf⟩ := hall
      exact ⟨x, hx, by simpa using hxf⟩
    have hsem := check_win_dir_valid b p e hw hplen (by omega) hpc
    have hP := of_decide_eq_true (RRes.ok.inj (hsem.symm.trans hce))
    obtain ⟨h0, h1, h2⟩ := hP
    have hp_e0 : lineCell p e 0 = p := lineCell_zero_eq p e hpc (by omega)
    have hs1 : stepPos p e = lineCell p e 1 := by
      conv_lhs => rw [← hp_e0]
      exact stepPos_lineCell p e 0
    have hs2 : stepPos (stepPos p e) e = lineCell p e 2 := by
      rw [hs1]
      exact stepPos_lineCell p e 1
    have hlen_pe : p.length = e.length := by omega
    have hd01 : lineCell p e 0 ≠ lineCell p e 1 :=
      lineCell_ne p e 0 1 hlen_pe hein henz (by norm_num)
    have hd02 : lineCell p e 0 ≠ lineCell p e 2 :=
      lineCell_ne p e 0 2 hlen_pe hein henz (by norm_num)
    have hd12 : lineCell p e 1 ≠ lineCell p e 2 :=
      lineCell_ne p e 1 2 hlen_pe hein henz (by norm_num)
    have hs1len : (lineCell p e 1).length = b.dimension := by
      rw [length_lineCell]; omega
    have hs2len : (lineCell p e 2).length = b.dimension := by
      rw [length_lineCell]; omega
    have hs1c := lineCell_lt_three p e 1
    have hs2c := lineCell_lt_three p e 2
    rw [hs1] at h1
    rw [hs2] at h2
    rw [hbp] at h1 h2
    by_cases hc : lineCell p e 1 = c1
    · -- the second probe is the other occupied cell; the third must be empty
      have hz2 : b.data.getD (posOffset (lineCell p e 2)) 0 = 0 := by
        apply hsparse _ hs2len hs2c
        · exact fun hcon => hd02 (hp_e0.trans hcon.symm)
        · exact fun hcon => hd12 (hc.trans hcon.symm)
      rw [hz2] at h2
      exact hpl h2.symm
    · -- the second probe is empty
      have hz1 : b.data.getD (posOffset (lineCell p e 1)) 0 = 0 := by
        apply hsparse _ hs1len hs1c
        · exact fun hcon => hd01 (hp_e0.trans hcon.symm)
        · exact hc
      rw [hz1] at h1
      exact hpl h1.symm
  · exact hf

/-! ## Claim theorems -/

/-- **C2** (code bug evaluation): the claim says `get` / `get_mut` fail with
`IndexError::OutOfBounds` whenever a coordinate is `≥ 3`; the code's bounds
check is `val > 3`, so the invalid coordinate `3` is accepted: on a fresh
dimension-2 board, `get [3,0]` and `get_mut [3,0]` succeed (reading flat
offset `3`, which is really cell `(0,1)`) instead of failing. -/
theorem claim2_bounds_bug :
    (Board.new 2).get [3, 0] = .ok 0
    ∧ (Board.new 2).get_mut [3, 0] = .ok (3, 0)
    ∧ (Board.new 2).get [3, 0] ≠ .err .OutOfBounds
    ∧ (Board.new 2).get_mut [3, 0] ≠ .err .OutOfBounds
    ∧ posOffset [3, 0] = 3 := by
  refine ⟨by decide, by decide, by decide, by decide, by decide⟩

/-- **C3** (code bug evaluation): the claim says every invalid input is
reported by an error value and no input aborts the process; but on a
dimension-2 board the accepted-but-invalid coordinate `3` at axis 1 yields
flat offset `9` on a 9-cell buffer, and `get`, `get_mut` and `place_piece`
all perform an out-of-range slice access (a Rust panic, modelled `fatal`),
with no error value returned. -/
theorem claim3_abort :
    (Board.new 2).get [0, 3] = .fatal
    ∧ (Board.new 2).get_mut [0, 3] = .fatal
    ∧ (Board.new 2).place_piece 1 [0, 3] = (.fatal, List.replicate 9 0) := by
  refine ⟨by decide, by decide, by decide⟩

/-- **C6**: placing at a position whose highest nonzero axis index is `≥ 2`
fails with `PlaceError::Unsupported` when the cell at the supporting position
(that axis decremented by one) is empty, and the cell buffer is unchanged. -/
theorem claim6_unsupported :
    ∀ (b : Board) (player : ℕ) (pos : List ℕ) (i : ℕ),
      2 ≤ i → i < pos.length → pos.getD i 0 ≠ 0 →
      (∀ j, i < j → j < pos.length → pos.getD j 0 = 0) →
      b.get (supportingPos pos) = .ok 0 →
      b.place_piece player pos = (.err (.PlaceError .Unsupported), b.data) := by
  intro b player pos i h2 hlen hnz hz hs
  have hha : highestAxis pos = i := highestAxis_eq pos i hlen hnz hz
  exact place_piece_unsupported b player pos (by omega) hs

/-- Witness for C6 at a concrete input: on a fresh dimension-3 board, placing
at `[0,1,1]` (axis 2 nonzero, supporting cell `[0,1,0]` empty) fails with
`Unsupported` and leaves the buffer unchanged. -/
theorem claim6_witness :
    (Board.new 3).place_piece 1 [0, 1, 1]
      = (.err (.PlaceError .Unsupported), List.replicate 27 0) :=
  claim6_unsupported (Board.new 3) 1 [0, 1, 1] 2 (by decide) (by decide)
    (by decide) (by intro j h1 h2; simp at h2; omega) (by decide)

/-- **C7**: placing at a position whose coordinates on every axis of index
`≥ 2` are zero never fails with `PlaceError::Unsupported`, regardless of the
board's contents. -/
theorem claim7_base_plane :
    ∀ (b : Board) (player : ℕ) (pos : List ℕ),
      (∀ i, 2 ≤ i → i < pos.length → pos.getD i 0 = 0) →
      (b.place_piece player pos).1 ≠ .err (.PlaceError .Unsupported) := by
  intro b player pos hz
  have := highestAxis_le_one pos hz
  rw [place_piece_eq_placeRest_low b player pos (by omega)]
  exact placeRest_no_unsupported b player pos

/-- Witness for C7 at a concrete input: placing at `[1,1]` on a fresh
dimension-2 board does not fail with `Unsupported`. -/
theorem claim7_witness :
    ((Board.new 2).place_piece 1 [1, 1]).1 ≠ .err (.PlaceError .Unsupported) :=
  claim7_base_plane (Board.new 2) 1 [1, 1] (by decide)

/-- **C8**: placing at a valid, supported position whose cell is already
non-empty fails with `PlaceError::Occupied` and the cell buffer is
unchanged. -/
theorem claim8_occupied :
    ∀ (b : Board) (player : ℕ) (pos : List ℕ) (v : ℕ),
      (highestAxis pos ≤ 1 ∨ ∃ s, b.get (supportingPos pos) = .ok s ∧ s ≠ 0) →
      b.get_mut pos = .ok (posOffset pos, v) → v ≠ 0 →
      b.place_piece player pos = (.err (.PlaceError .Occupied), b.data) := by
  intro b player pos v hsup hg hv
  have hrest : b.placeRest player pos = (.err (.PlaceError .Occupied), b.data) := by
    simp only [Board.placeRest, hg]
    rw [if_pos hv]
  rcases hsup with hle | ⟨s, hs, hs0⟩
  · rw [place_piece_eq_placeRest_low b player pos (by omega)]
    exact hrest
  · by_cases hh : 1 < highestAxis pos
    · rw [place_piece_eq_placeRest_supported b player pos s hh hs hs0]
      exact hrest
    · rw [place_piece_eq_placeRest_low b player pos hh]
      exact hrest

/-- Witness for C8 at a concrete input: on a dimension-2 board whose cell
`(0,0)` holds player 5, placing at `[0,0]` fails with `Occupied` and leaves
the buffer unchanged. -/
theorem claim8_witness :
    (Board.mk 2 ((List.replicate 9 0).set 0 5)).place_piece 1 [0, 0]
      = (.err (.PlaceError .Occupied), (List.replicate 9 0).set 0 5) :=
  claim8_occupied (Board.mk 2 ((List.replicate 9 0).set 0 5)) 1 [0, 0] 5
    (Or.inl (by decide)) (by decide) (by decide)

/-- **C9** (atomicity of placement): whenever `place_piece` returns an error
value, the cell buffer is exactly as before the call; and once the pre-write
phase has succeeded (the support check passed, the target cell was read
through `get_mut` and found empty), the result is never an error — in
particular the win check run after the write never returns an error. -/
theorem claim9_atomicity :
    ∀ (b : Board) (player : ℕ) (pos : List ℕ),
      (∀ e, (b.place_piece player pos).1 = .err e
        → (b.place_piece player pos).2 = b.data)
      ∧ (∀ idx v, b.get_mut pos = .ok (idx, v) → v = 0 →
          (highestAxis pos ≤ 1
            ∨ ∃ s, b.get (supportingPos pos) = .ok s ∧ s ≠ 0) →
          ∀ e, (b.place_piece player pos).1 ≠ .err e) := by
  intro b player pos
  constructor
  · exact place_piece_err_data b player pos
  · intro idx v hg hv hsup e
    have hrest := placeRest_prewrite_no_err b player pos idx v hg hv e
    rcases hsup with hle | ⟨s, hs, hs0⟩
    · rw [place_piece_eq_placeRest_low b player pos (by omega)]
      exact hrest
    · by_cases hh : 1 < highestAxis pos
      · rw [place_piece_eq_placeRest_supported b player pos s hh hs hs0]
        exact hrest
      · rw [place_piece_eq_placeRest_low b player pos hh]
        exact hrest

/-- Witness for C9 at concrete inputs: an unsupported placement on a fresh
dimension-3 board returns an error and leaves the buffer unchanged; a
successful placement at `[0,0]` on a fresh dimension-2 board never returns an
error. -/
theorem claim9_witness :
    ((Board.new 3).place_piece 1 [0, 1, 1]).2 = List.replicate 27 0
    ∧ ∀ e, ((Board.new 2).place_piece 1 [0, 0]).1 ≠ .err e :=
  ⟨(claim9_atomicity (Board.new 3) 1 [0, 1, 1]).1
      (.PlaceError .Unsupported) (by decide),
    fun e => (claim9_atomicity (Board.new 2) 1 [0, 0]).2 0 0 (by decide) rfl
      (Or.inl (by decide)) e⟩

/-- **C10** (start-point invariance of the line check): for a well-formed
board, a valid position `p` and a direction `d`, `check_win_dir p d` equals
`check_win_dir p' d` where `p'` is `p` advanced one (wrapped) step along `d`:
the check depends only on the three cells of the wrapped line, not on the
starting cell. -/
theorem claim10_start_invariance :
    ∀ (b : Board) (p : List ℕ) (d : List ℤ), b.WF →
      p.length = b.dimension → d.length = b.dimension →
      (∀ c ∈ p, c < 3) → (∀ x ∈ d, -1 ≤ x ∧ x ≤ 1) →
      b.check_win_dir p d = b.check_win_dir (stepPos p d) d := by
  intro b p d hw hl hdl hp hin
  have hd : d.length = p.length := by omega
  have h1 := check_win_dir_valid b p d hw hl hd hp
  have hl2 : (stepPos p d).length = b.dimension := by
    rw [length_stepPos]; omega
  have hd2 : d.length = (stepPos p d).length := by
    rw [length_stepPos]; omega
  have h2 := check_win_dir_valid b (stepPos p d) d hw hl2 hd2
    (stepPos_lt_three p d)
  have e0 : lineCell p d 0 = p := lineCell_zero_eq p d hp (by omega)
  have e1 : stepPos p d = lineCell p d 1 := by
    conv_lhs => rw [← e0]
    exact stepPos_lineCell p d 0
  have e2 : stepPos (stepPos p d) d = lineCell p d 2 := by
    rw [e1]
    exact stepPos_lineCell p d 1
  have e3 : stepPos (stepPos (stepPos p d) d) d = p := by
    rw [e2]
    have h3 := stepPos_lineCell p d 2
    rw [h3]
    have := lineCell_add_three p d 0
    simpa [e0] using this
  rw [h1, h2, e3]
  congr 1
  rw [decide_eq_decide]
  constructor
  · rintro ⟨ha, hb, hc⟩
    refine ⟨by omega, by omega, by omega⟩
  · rintro ⟨ha, hb, hc⟩
    refine ⟨by omega, by omega, by omega⟩

/-- Witness for C10 at a concrete input: on a dimension-2 board with the main
diagonal filled by player 1, the line check from `[0,0]` along `[1,1]` equals
the line check from the next cell `[1,1]` along the same direction. -/
theorem claim10_witness :
    (Board.mk 2 ((((List.replicate 9 0).set 0 1).set 4 1).set 8 1)).check_win_dir
        [0, 0] [1, 1]
      = (Board.mk 2 ((((List.replicate 9 0).set 0 1).set 4 1).set 8 1)).check_win_dir
        (stepPos [0, 0] [1, 1]) [1, 1] :=
  claim10_start_invariance (Board.mk 2 ((((List.replicate 9 0).set 0 1).set 4 1).set 8 1))
    [0, 0] [1, 1] rfl rfl rfl (by decide) (by decide)

/-- **C5**: for a well-formed board and a valid position `p`, `get p` reads
the cell at flat offset `Σ_i p[i] * 3^i`; in particular, on a dimension-4
board, writing any value directly to flat offset 27 and reading via position
`(0,0,0,1)` yields the written value. -/
theorem claim5_offset_formula :
    (∀ (b : Board) (p : List ℕ), b.WF → p.length = b.dimension →
      (∀ c ∈ p, c < 3) →
      b.get p = .ok (b.data.getD
        (∑ i ∈ Finset.range p.length, p.getD i 0 * 3 ^ i) 0))
    ∧ (∀ v : ℕ,
      (Board.mk 4 ((List.replicate 81 0).set 27 v)).get [0, 0, 0, 1]
        = .ok v) := by
  constructor
  · intro b p hw hl hp
    have h := get_valid b p hw hl hp
    rwa [posOffset_eq_sum] at h
  · intro v
    have hb : (Board.mk 4 ((List.replicate 81 0).set 27 v)).WF := by
      simp [Board.WF]
    have h := get_valid (Board.mk 4 ((List.replicate 81 0).set 27 v))
      [0, 0, 0, 1] hb rfl (by decide)
    rw [h]
    have hoff : posOffset [0, 0, 0, 1] = 27 := by decide
    rw [hoff]
    exact congrArg RRes.ok (getD_set_self (List.replicate 81 0) 27 v (by simp))

/-- Witness for C5 at concrete inputs: reading `[1,2]` on a fresh dimension-2
board returns the cell at the mixed-radix offset, and the 4D offset-27
scenario holds for the written value 5. -/
theorem claim5_witness :
    (Board.new 2).get [1, 2] = .ok ((Board.new 2).data.getD
      (∑ i ∈ Finset.range 2, [1, 2].getD i 0 * 3 ^ i) 0)
    ∧ (Board.mk 4 ((List.replicate 81 0).set 27 5)).get [0, 0, 0, 1] = .ok 5 :=
  ⟨claim5_offset_formula.1 (Board.new 2) [1, 2] rfl rfl (by decide),
    claim5_offset_formula.2 5⟩

/-- Counterexample for **C1** as stated: on a fresh dimension-2 board,
`is_win_at [0,0]` returns false after `check_win_dir` has been invoked on
exactly 5 candidate direction vectors — not the claimed
`(3^2 - 1) / 2 = 4` — and both members of the direction/negation pair
`([0,-1], [0,1])` are tested. -/
theorem claim1_counterexample :
    (Board.new 2).is_win_at [0, 0] = .ok false
    ∧ ((Board.new 2).is_win_at_trace [0, 0]).1 = (Board.new 2).is_win_at [0, 0]
    ∧ ((Board.new 2).is_win_at_trace [0, 0]).2.length = 5
    ∧ [0, -1] ∈ ((Board.new 2).is_win_at_trace [0, 0]).2
    ∧ [0, 1] ∈ ((Board.new 2).is_win_at_trace [0, 0]).2
    ∧ (3 ^ 2 - 1) / 2 = 4 := by
  refine ⟨by decide, by decide, by decide, by decide, by decide, by decide⟩

/-- **C1 (amended)**: for every well-formed board of dimension `D ≥ 1` and
valid position `p`, `is_win_at p` terminates normally, returns true exactly
when some tested candidate direction yields a win, and otherwise returns
false after `check_win_dir` has examined exactly the `2 * 3^(D-1) - 1`
nonzero vectors of `{-1,0,1}^D` whose first component is `≤ 0` — one member
of each direction/negation pair whose first component is nonzero, but *both*
members of the pairs whose first component is zero. -/
theorem claim1_amended :
    ∀ (b : Board) (p : List ℕ), b.WF → p.length = b.dimension →
      1 ≤ p.length → (∀ c ∈ p, c < 3) →
      ((b.is_win_at p = .ok true ∨ b.is_win_at p = .ok false)
      ∧ (b.is_win_at p = .ok true
          ↔ ∃ e ∈ nonzeroCands p.length, b.check_win_dir p e = .ok true)
      ∧ (b.is_win_at p = .ok false →
          (b.is_win_at_trace p).2 = nonzeroCands p.length
          ∧ (nonzeroCands p.length).length = 2 * 3 ^ (p.length - 1) - 1)) := by
  intro b p hw hl hD hp
  exact ⟨is_win_at_total b p hw hl hD hp,
    is_win_at_true_iff b p hw hl hD hp,
    fun h => ⟨is_win_at_trace_nowin b p hw hl hD hp h,
      length_nonzeroCands p.length hD⟩⟩

/-- Witness for the amended C1 at a concrete input: the fresh dimension-2
board at position `[0,0]`. -/
theorem claim1_witness :
    (((Board.new 2).is_win_at [0, 0] = .ok true
        ∨ (Board.new 2).is_win_at [0, 0] = .ok false)
    ∧ ((Board.new 2).is_win_at [0, 0] = .ok true
        ↔ ∃ e ∈ nonzeroCands 2, (Board.new 2).check_win_dir [0, 0] e = .ok true)
    ∧ ((Board.new 2).is_win_at [0, 0] = .ok false →
        ((Board.new 2).is_win_at_trace [0, 0]).2 = nonzeroCands 2
        ∧ (nonzeroCands 2).length = 2 * 3 ^ (2 - 1) - 1)) :=
  claim1_amended (Board.new 2) [0, 0] rfl rfl (by norm_num) (by decide)

/-- **C4** (win detection along wrapped lines): (1) when the other two cells
of a wrapped line already hold the player and a successful placement fills
the line's remaining cell, `place_piece` returns true; (2) when only one cell
of the line holds the player on an otherwise-empty board, a successful
placement at another cell of the line returns false. -/
theorem claim4_win_detection :
    (∀ (b : Board) (player : ℕ) (q : List ℕ) (d : List ℤ) (k0 : ℕ),
      b.WF → 1 ≤ b.dimension → q.length = b.dimension → (∀ c ∈ q, c < 3) →
      d.length = b.dimension → (∀ x ∈ d, -1 ≤ x ∧ x ≤ 1) → (∃ x ∈ d, x ≠ 0) →
      player ≠ 0 →
      (∀ k, k < 3 → lineCell q d k ≠ lineCell q d k0 →
        b.get (lineCell q d k) = .ok player) →
      (∃ w d2, b.place_piece player (lineCell q d k0) = (.ok w, d2)) →
      (b.place_piece player (lineCell q d k0)).1 = .ok true)
    ∧ (∀ (b : Board) (player : ℕ) (q : List ℕ) (d : List ℤ) (k1 k2 : ℕ),
      b.WF → 1 ≤ b.dimension → q.length = b.dimension → (∀ c ∈ q, c < 3) →
      d.length = b.dimension → (∀ x ∈ d, -1 ≤ x ∧ x ≤ 1) → (∃ x ∈ d, x ≠ 0) →
      player ≠ 0 →
      lineCell q d k1 ≠ lineCell q d k2 →
      b.get (lineCell q d k1) = .ok player →
      (∀ j, j < b.data.length → j ≠ posOffset (lineCell q d k1) →
        b.data.getD j 0 = 0) →
      (∃ w d2, b.place_piece player (lineCell q d k2) = (.ok w, d2)) →
      (b.place_piece player (lineCell q d k2)).1 = .ok false) := by
  constructor
  · rintro b player q d k0 hw hD hql hqc hdl hin hnz hpl hline ⟨w, d2, hplace⟩
    obtain ⟨v, hg, hv, hd2, hwinw⟩ := place_ok_inv b player _ w d2 hplace
    have hplen : (lineCell q d k0).length = b.dimension := by
      rw [length_lineCell]; omega
    have hpc := lineCell_lt_three q d k0
    have hoffp : posOffset (lineCell q d k0) < b.data.length := by
      rw [hw, ← hplen]
      exact posOffset_lt _ hpc
    have hw2 := WF_set b (posOffset (lineCell q d k0)) player hw
    have hcells : ∀ k, (Board.mk b.dimension
        (b.data.set (posOffset (lineCell q d k0)) player)).data.getD
        (posOffset (lineCell q d k)) 0 = player := by
      intro k
      rw [mk_data, lineCell_mod q d k]
      by_cases hkp : lineCell q d (k % 3) = lineCell q d k0
      · rw [hkp]
        exact getD_set_self _ _ _ hoffp
      · have hkc := lineCell_lt_three q d (k % 3)
        have hklen : (lineCell q d (k % 3)).length = b.dimension := by
          rw [length_lineCell]; omega
        have hoffne : posOffset (lineCell q d k0)
            ≠ posOffset (lineCell q d (k % 3)) := by
          intro hc
          exact hkp (posOffset_inj _ _ (by omega) hkc hpc hc.symm)
        rw [getD_set_ne _ _ _ _ hoffne]
        have hbk := hline (k % 3) (Nat.mod_lt _ (by norm_num)) hkp
        have hgv := get_valid b (lineCell q d (k % 3)) hw hklen hkc
        rw [hgv] at hbk
        exact RRes.ok.inj hbk
    have hwin_true := line_filled_wins
      (Board.mk b.dimension (b.data.set (posOffset (lineCell q d k0)) player))
      player q d k0 hw2 hD hql hqc hdl hin hnz hpl hcells
    have hwt : w = true := RRes.ok.inj (hwinw.symm.trans hwin_true)
    rw [hplace, hwt]
  · rintro b player q d k1 k2 hw hD hql hqc hdl hin hnz hpl hne hc1 hempty
      ⟨w, d2, hplace⟩
    obtain ⟨v, hg, hv, hd2, hwinw⟩ := place_ok_inv b player _ w d2 hplace
    have hplen : (lineCell q d k2).length = b.dimension := by
      rw [length_lineCell]; omega
    have hpc := lineCell_lt_three q d k2
    have hoffp : posOffset (lineCell q d k2) < b.data.length := by
      rw [hw, ← hplen]
      exact posOffset_lt _ hpc
    have hw2 := WF_set b (posOffset (lineCell q d k2)) player hw
    have hc1len : (lineCell q d k1).length = b.dimension := by
      rw [length_lineCell]; omega
    have hc1c := lineCell_lt_three q d k1
    have hbp : (Board.mk b.dimension
        (b.data.set (posOffset (lineCell q d k2)) player)).data.getD
        (posOffset (lineCell q d k2)) 0 = player := by
      rw [mk_data]
      exact getD_set_self _ _ _ hoffp
    have hsparse : ∀ r : List ℕ, r.length = b.dimension → (∀ c ∈ r, c < 3) →
        r ≠ lineCell q d k2 → r ≠ lineCell q d k1 →
        (Board.mk b.dimension
          (b.data.set (posOffset (lineCell q d k2)) player)).data.getD
          (posOffset r) 0 = 0 := by
      intro r hrlen hrc hrp hrc1
      rw [mk_data]
      have hoffne : posOffset (lineCell q d k2) ≠ posOffset r := by
        intro hc
        exact hrp (posOffset_inj _ _ (by omega) hrc hpc hc.symm)
      rw [getD_set_ne _ _ _ _ hoffne]
      apply hempty
      · rw [hw, ← hrlen]
        exact posOffset_lt _ hrc
      · intro hc
        exact hrc1 (posOffset_inj _ _ (by omega) hrc hc1c hc)
    have hwin_false := two_cells_no_win
      (Board.mk b.dimension (b.data.set (posOffset (lineCell q d k2)) player))
      player (lineCell q d k2) (lineCell q d k1) hw2 hD hplen hpc hpl hbp
      hsparse
    have hwt : w = false := RRes.ok.inj (hwinw.symm.trans hwin_false)
    rw [hplace, hwt]

/-- Witness for C4 at concrete inputs: the 2D diagonal scenario — with
`(0,0)` and `(1,1)` held by player 1, placing at `(2,2)` (the cell
`lineCell [0,0] [1,1] 2`) returns true; with only `(0,0)` held, placing at
`(1,1)` returns false. -/
theorem claim4_witness :
    ((Board.mk 2 (((List.replicate 9 0).set 0 1).set 4 1)).place_piece 1
        (lineCell [0, 0] [1, 1] 2)).1 = .ok true
    ∧ ((Board.mk 2 ((List.replicate 9 0).set 0 1)).place_piece 1
        (lineCell [0, 0] [1, 1] 1)).1 = .ok false :=
  ⟨claim4_win_detection.1 (Board.mk 2 (((List.replicate 9 0).set 0 1).set 4 1))
      1 [0, 0] [1, 1] 2 rfl (by norm_num) rfl (by decide) rfl (by decide)
      (by decide) (by decide) (by decide)
      ⟨true, ((((List.replicate 9 0).set 0 1).set 4 1).set 8 1), by decide⟩,
    claim4_win_detection.2 (Board.mk 2 ((List.replicate 9 0).set 0 1))
      1 [0, 0] [1, 1] 0 1 rfl (by norm_num) rfl (by decide) rfl (by decide)
      (by decide) (by decide) (by decide) (by decide) (by decide)
      ⟨false, (((List.replicate 9 0).set 0 1).set 4 1), by decide⟩⟩

end NDTTT
